import Mathlib

/-!
Verification of the sharded crossword lookup engine
(`ChunkedCrosswordLoader`, file `src/chunked-data-loader.ts`).

The engine is embedded shallowly:
* JS strings are `String`, JS numbers that hold counts/sizes/времена are `Nat`;
* the JS `Map` (insertion ordered) is an association list whose head is the
  oldest-inserted entry;
* the R2 bucket is a function `String → Option Chunk` plus an
  `Option ChunkManifest` (`none` models not-found / corrupt / backend failure,
  which the source treats identically: every failure path becomes a thrown
  error that `JSON.parse`/`get` produce);
* `async` methods that can throw become `Except Unit`; methods never throw
  before mutating, so an error result carries no state;
* `Promise.allSettled` keeps input order, so the parallel load is linearised
  in input order;
* `Math.random` is an oracle `rand : Nat → Nat`; the Fisher–Yates draw
  `Math.floor(Math.random() * (i + 1))` at index `i` becomes `rand i % (i+1)`.
-/

namespace DownPattern

/-- `interface AnswerMatch` from `types.ts`: an answer with its corpus count. -/
structure AnswerMatch where
  answer : String
  count : Nat
deriving DecidableEq

/-- `interface Chunk`: the decoded shard wire format. -/
structure Chunk where
  answers : List AnswerMatch
  clues : List (String × List String)
deriving DecidableEq

/-- `interface ChunkManifest`: `chunks` maps answer length to a map from
first-letter bucket to shard file name. -/
structure ChunkManifest where
  totalEntries : Nat
  chunkCount : Nat
  buildTime : String
  chunks : List (Nat × List (Char × String))
deriving DecidableEq

/-- `interface CachedResult` of the result cache. -/
structure CachedResult where
  results : List AnswerMatch
  timestamp : Nat
deriving DecidableEq

/-- The mutable fields of `ChunkedCrosswordLoader`.  Both caches are JS `Map`s,
modelled as association lists ordered oldest-inserted-first. -/
structure LoaderState where
  manifest : Option ChunkManifest
  chunkCache : List (String × Chunk)
  resultCache : List (String × CachedResult)
deriving DecidableEq

/-- The R2 bucket: `manifestObj` is the parse result of
`chunked-indexes/manifest.json`, `chunkStore f` of `chunked-indexes/f`. -/
structure Env where
  manifestObj : Option ChunkManifest
  chunkStore : String → Option Chunk

deriving instance DecidableEq for Except

/-- A freshly constructed loader. -/
def initState : LoaderState := ⟨none, [], []⟩

/-- Association-list lookup, modelling both JS object indexing and `Map.get`. -/
def assocGet {κ α : Type} [DecidableEq κ] : List (κ × α) → κ → Option α
  | [], _ => none
  | p :: ps, k => if p.1 = k then some p.2 else assocGet ps k

/-- `Map.set`: overwrite in place when the key exists, else append (JS `Map`
keeps insertion order and `set` of an existing key keeps its position). -/
def mapSet {α : Type} (m : List (String × α)) (k : String) (v : α) :
    List (String × α) :=
  if (assocGet m k).isSome then m.map (fun p => if p.1 = k then (k, v) else p)
  else m ++ [(k, v)]

/-- `Map.delete`. -/
def mapDelete {α : Type} (m : List (String × α)) (k : String) :
    List (String × α) :=
  m.filter (fun p => p.1 != k)

/-- `String.prototype.toUpperCase` on the ASCII strings the engine handles. -/
def jsToUpper (s : String) : String := ⟨s.data.map Char.toUpper⟩

/-- Character class `[A-Z]` of the compiled pattern regex. -/
def isUpperLetter (c : Char) : Bool := 'A' ≤ c && c ≤ 'Z'

/-- `firstChar.replace(/[^A-Z0-9]/g, '_')` on a single character. -/
def sanitizeChar (c : Char) : Char :=
  if ('A' ≤ c && c ≤ 'Z') || ('0' ≤ c && c ≤ '9') then c else '_'

/-- Semantics of the regex `'^' + pattern.replace(/\?/g, '[A-Z]') + '$'`
(line 197) on patterns made of letters and `?`: anchored at both ends, each
`?` matches exactly one character of `[A-Z]`, every other character is a
literal. -/
def regexAccepts : List Char → List Char → Bool
  | [], [] => true
  | p :: ps, c :: cs =>
      (if p = '?' then isUpperLetter c else p == c) && regexAccepts ps cs
  | _, _ => false

/-- `loadManifest` (lines 29–45): idempotent once loaded; a missing or corrupt
manifest object is a thrown error. -/
def loadManifest (env : Env) (s : LoaderState) : Except Unit LoaderState :=
  match s.manifest with
  | some _ => .ok s
  | none =>
      match env.manifestObj with
      | some m => .ok { s with manifest := some m }
      | none => .error ()

/-- The eviction block of `loadChunk` (lines 63–69): when the cache exceeds
10 entries, delete the first (oldest) key — guarded by the JS truthiness test
`if (firstKey)`, which skips the delete when the oldest key is the empty
string. -/
def chunkEvict (cache1 : List (String × Chunk)) : List (String × Chunk) :=
  if cache1.length > 10 then
    match cache1.head? with
    | some first => if first.1 ≠ "" then mapDelete cache1 first.1 else cache1
    | none => cache1
  else cache1

/-- `loadChunk` (lines 47–76): serve from the cache when present; otherwise
fetch, insert and run the eviction block. -/
def loadChunk (env : Env) (s : LoaderState) (fileName : String) :
    Except Unit (Chunk × LoaderState) :=
  match assocGet s.chunkCache fileName with
  | some c => .ok (c, s)
  | none =>
      match env.chunkStore fileName with
      | none => .error ()
      | some chunk =>
          .ok (chunk,
            { s with chunkCache := chunkEvict (mapSet s.chunkCache fileName chunk) })

/-- `loadChunksParallel` (lines 78–85): `Promise.allSettled` keeps input
order and rejected loads are filtered out; the cache effects are linearised
in input order. -/
def loadChunksParallel (env : Env) (s : LoaderState) :
    List String → List Chunk × LoaderState
  | [] => ([], s)
  | f :: fs =>
      match loadChunk env s f with
      | .ok (c, s') =>
          let r := loadChunksParallel env s' fs
          (c :: r.1, r.2)
      | .error _ => loadChunksParallel env s fs

/-- `getRelevantChunks` (lines 87–110), over the loader's manifest field.  For
the empty pattern `pattern[0]` is `undefined`, which is `!== '?'`, and
`firstChar.replace` then throws a `TypeError` (line 97) — the `.error` case.
The push in the literal branch sits behind the JS truthiness test
`if (lengthChunks && lengthChunks[cleanFirstChar])` (line 98): a present
`lengthChunks` object is always truthy, but a bucket whose file name is the
empty string is falsy, so no shard is pushed for it.  The wildcard branch
pushes `Object.values(lengthChunks)` with no such test. -/
def getRelevantChunksM (mo : Option ChunkManifest) (pat : String) :
    Except Unit (List String) :=
  match mo with
  | none => .ok []
  | some m =>
      match pat.data with
      | [] => .error ()
      | firstChar :: _ =>
          if firstChar ≠ '?' then
            match assocGet m.chunks pat.length with
            | some lengthChunks =>
                match assocGet lengthChunks (sanitizeChar firstChar) with
                | some f => if f ≠ "" then .ok [f] else .ok []
                | none => .ok []
            | none => .ok []
          else
            match assocGet m.chunks pat.length with
            | some lengthChunks => .ok (lengthChunks.map Prod.snd)
            | none => .ok []

/-- The two search strategies of `analyzePattern`. -/
inductive SearchStrategy where
  | direct
  | parallelOptimized
deriving DecidableEq

/-- Return type of `analyzePattern`. -/
structure PatternAnalysis where
  wildcardCount : Nat
  wildcardPositions : List Nat
  startsWithWildcard : Bool
  isHighCostPattern : Bool
  searchStrategy : SearchStrategy
deriving DecidableEq

/-- `analyzePattern` (lines 112–144).  `wildcardCount / pattern.length > 0.6`
becomes `5 * wildcardCount > 3 * length` (equivalent over the rationals; for
the empty pattern the JS ratio is `NaN`, and `startsWithWildcard` is already
false, so `isHighCostPattern` is false either way). -/
def analyzePattern (pat : String) : PatternAnalysis :=
  let l := pat.data
  let wildcardPositions :=
    (List.range l.length).filter (fun i => l.getD i ' ' == '?')
  let wildcardCount := wildcardPositions.length
  let startsWithWildcard : Bool := l.head? == some '?'
  let isHighCost : Bool :=
    startsWithWildcard && (decide (wildcardCount > 3) ||
      decide (5 * wildcardCount > 3 * l.length))
  ⟨wildcardCount, wildcardPositions, startsWithWildcard, isHighCost,
    if startsWithWildcard then .parallelOptimized else .direct⟩

/-- `CACHE_TTL = 5 * 60 * 1000`. -/
def CACHE_TTL : Nat := 5 * 60 * 1000

/-- `getCacheKey` (lines 146–148). -/
def getCacheKey (pat : String) : String := "pattern:" ++ jsToUpper pat

/-- `getCachedResult` (lines 150–163): a stale entry is deleted and reported
as a miss; `Date.now()` is passed in as `now`. -/
def getCachedResult (now : Nat) (s : LoaderState) (pat : String) :
    Option (List AnswerMatch) × LoaderState :=
  let cacheKey := getCacheKey pat
  match assocGet s.resultCache cacheKey with
  | none => (none, s)
  | some cached =>
      if now - cached.timestamp > CACHE_TTL then
        (none, { s with resultCache := mapDelete s.resultCache cacheKey })
      else (some cached.results, s)

/-- The eviction block of `setCachedResult` (lines 169–175): delete the
oldest entry when the cache already holds `MAX_RESULT_CACHE_SIZE = 100`
entries, again behind the JS truthiness guard `if (oldestKey)`. -/
def resultEvict (c : List (String × CachedResult)) :
    List (String × CachedResult) :=
  if c.length ≥ 100 then
    match c.head? with
    | some oldest => if oldest.1 ≠ "" then mapDelete c oldest.1 else c
    | none => c
  else c

/-- `setCachedResult` (lines 165–181): run the eviction block, then insert
a copy of the results stamped with `Date.now()`. -/
def setCachedResult (now : Nat) (s : LoaderState) (pat : String)
    (results : List AnswerMatch) : LoaderState :=
  { s with resultCache :=
      mapSet (resultEvict s.resultCache) (getCacheKey pat) ⟨results, now⟩ }

/-- One shard scan of the direct strategy (lines 210–214): keep every answer
the regex accepts, in shard order. -/
def scanChunkDirect (pat : List Char) (c : Chunk) : List AnswerMatch :=
  c.answers.filter (fun a => regexAccepts pat a.answer.data)

/-- The direct strategy loop (lines 207–218): shards are loaded sequentially,
a failing shard is caught and skipped, every answer of every loaded shard is
scanned. -/
def directScan (env : Env) (pat : List Char) :
    List String → LoaderState → List AnswerMatch →
      List AnswerMatch × LoaderState
  | [], s, acc => (acc, s)
  | f :: fs, s, acc =>
      match loadChunk env s f with
      | .error _ => directScan env pat fs s acc
      | .ok (c, s') => directScan env pat fs s' (acc ++ scanChunkDirect pat c)

/-- The inner answer loop of the parallel strategy (lines 227–236): push each
accepted answer and break out of the shard once `maxResults * 2` results have
accumulated. -/
def scanChunkEarly (pat : List Char) (maxResults : Nat) :
    List AnswerMatch → List AnswerMatch → List AnswerMatch
  | acc, [] => acc
  | acc, a :: rest =>
      if regexAccepts pat a.answer.data then
        let acc' := acc ++ [a]
        if acc'.length ≥ maxResults * 2 then acc'
        else scanChunkEarly pat maxResults acc' rest
      else scanChunkEarly pat maxResults acc rest

/-- The outer shard loop of the parallel strategy (lines 226–243): stop
processing further shards once `maxResults * 2` results have accumulated. -/
def parScan (pat : List Char) (maxResults : Nat) :
    List Chunk → List AnswerMatch → List AnswerMatch
  | [], acc => acc
  | c :: cs, acc =>
      let acc' := scanChunkEarly pat maxResults acc c.answers
      if acc'.length ≥ maxResults * 2 then acc'
      else parScan pat maxResults cs acc'

/-- `results.sort((a, b) => b.count - a.count)` (line 248): a stable sort by
count descending. -/
def sortByCountDesc (l : List AnswerMatch) : List AnswerMatch :=
  l.insertionSort (fun a b => b.count ≤ a.count)

/-- `findMatchingAnswers` (lines 183–254), with `Date.now()` passed as `now`.
The happy path returns the results together with the updated loader state. -/
def findMatchingAnswers (env : Env) (now : Nat) (s0 : LoaderState)
    (pat : String) (maxResults : Nat) :
    Except Unit (List AnswerMatch × LoaderState) :=
  match loadManifest env s0 with
  | .error e => .error e
  | .ok s1 =>
      let normalizedPattern := jsToUpper pat
      match getCachedResult now s1 normalizedPattern with
      | (some cachedResult, s2) => .ok (cachedResult.take maxResults, s2)
      | (none, s2) =>
          let patternAnalysis := analyzePattern normalizedPattern
          let patChars := normalizedPattern.data
          match getRelevantChunksM s2.manifest normalizedPattern with
          | .error e => .error e
          | .ok relevantChunks =>
              match patternAnalysis.searchStrategy with
              | .direct =>
                  let r := directScan env patChars relevantChunks s2 []
                  let sortedResults := (sortByCountDesc r.1).take maxResults
                  let s4 := setCachedResult now r.2 normalizedPattern sortedResults
                  .ok (sortedResults, s4)
              | .parallelOptimized =>
                  let r := loadChunksParallel env s2 relevantChunks
                  let results := parScan patChars maxResults r.1 []
                  let sortedResults := (sortByCountDesc results).take maxResults
                  let s4 := setCachedResult now r.2 normalizedPattern sortedResults
                  .ok (sortedResults, s4)

/-- Calling `findMatchingAnswers` without the optional second argument: the
source declares `maxResults: number = 100` (line 183). -/
def findMatchingAnswersDefault (env : Env) (now : Nat) (s0 : LoaderState)
    (pat : String) : Except Unit (List AnswerMatch × LoaderState) :=
  findMatchingAnswers env now s0 pat 100

/-- `[...new Set(clues)]`: deduplication keeping first occurrences. -/
def jsSetUnique (l : List String) : List String :=
  l.foldl (fun acc c => if c ∈ acc then acc else acc ++ [c]) []

/-- The destructuring swap `[a[i], a[j]] = [a[j], a[i]]` on a list; indices in
the source are always in range. -/
def swapAt (l : List α) (i j : Nat) : List α :=
  match l.get? i, l.get? j with
  | some a, some b => (l.set i b).set j a
  | _, _ => l

/-- The Fisher–Yates loop of `getClues` (lines 279–282): `i` runs from
`length - 1` down to `1`, and the random index is `rand i % (i + 1) ≤ i`. -/
def fisherYatesAux (rand : Nat → Nat) : Nat → List α → List α
  | 0, l => l
  | Nat.succ i, l => fisherYatesAux rand i (swapAt l (i + 1) (rand (i + 1) % (i + 2)))

/-- The full shuffle of `getClues`. -/
def fisherYates (rand : Nat → Nat) (l : List α) : List α :=
  fisherYatesAux rand (l.length - 1) l

/-- `getClues` (lines 256–288).  `loadManifest` runs outside the `try`, so a
manifest failure is rethrown; for the empty answer `normalizedAnswer[0]` is
`undefined` and `firstLetter.replace` (line 262) throws, also outside the
`try`.  Everything after the `try` begins degrades to `[]`. -/
def getClues (env : Env) (rand : Nat → Nat) (s0 : LoaderState)
    (answer : String) (maxClues : Nat) :
    Except Unit (List String × LoaderState) :=
  match loadManifest env s0 with
  | .error e => .error e
  | .ok s1 =>
      let normalizedAnswer := jsToUpper answer
      match normalizedAnswer.data with
      | [] => .error ()
      | firstLetter :: _ =>
          let cleanFirstLetter := sanitizeChar firstLetter
          match s1.manifest.bind
              (fun m => assocGet m.chunks normalizedAnswer.length) with
          | none => .ok ([], s1)
          | some lengthChunks =>
              match assocGet lengthChunks cleanFirstLetter with
              | none => .ok ([], s1)
              | some fileName =>
                  match loadChunk env s1 fileName with
                  | .error _ => .ok ([], s1)
                  | .ok (chunk, s2) =>
                      let clues :=
                        (assocGet chunk.clues normalizedAnswer).getD []
                      let uniqueClues := jsSetUnique clues
                      let shuffled := fisherYates rand uniqueClues
                      .ok (shuffled.take maxClues, s2)

/-- A sequence of shard-cache operations (`loadChunk` calls, lines 47–76),
ignoring the returned chunks; a failed load leaves the state unchanged. -/
def runChunkLoads (env : Env) (files : List String) (s : LoaderState) :
    LoaderState :=
  files.foldl
    (fun st f =>
      match loadChunk env st f with
      | .ok r => r.2
      | .error _ => st) s

/-- A sequence of result-cache insertions (`setCachedResult` calls,
lines 165–181). -/
def runResultInserts (now : Nat) (ps : List (String × List AnswerMatch))
    (s : LoaderState) : LoaderState :=
  ps.foldl (fun st p => setCachedResult now st p.1 p.2) s

/-- Pure model of a bounded FIFO key list of capacity `cap`: append, then
drop the oldest key when over capacity. -/
def fifoCap (cap : Nat) (L : List String) (k : String) : List String :=
  let L' := L ++ [k]
  if L'.length > cap then L'.tail else L'

/-- Invariant of the shard cache under nonempty file names. -/
def GoodChunkCache (c : List (String × Chunk)) : Prop :=
  c.length ≤ 10 ∧ ∀ p ∈ c, p.1 ≠ ""

/-- Invariant of the result cache. -/
def GoodResultCache (c : List (String × CachedResult)) : Prop :=
  c.length ≤ 100 ∧ ∀ p ∈ c, p.1 ≠ ""

instance : IsTrans AnswerMatch (fun a b => b.count ≤ a.count) :=
  ⟨fun _ _ _ hab hbc => le_trans hbc hab⟩

instance : IsTotal AnswerMatch (fun a b => b.count ≤ a.count) :=
  ⟨fun a b => le_total b.count a.count⟩

/-- A shard cache whose entries agree with the backing store — true of every
state reachable from a fresh loader against an immutable store. -/
def CacheConsistent (env : Env) (cache : List (String × Chunk)) : Prop :=
  ∀ p ∈ cache, env.chunkStore p.1 = some p.2

/-- Spec-side description of a search (§4.4 steps 5–7, §7, §8): the shards
that fail to load contribute nothing; the direct strategy keeps every
accepted answer of every healthy shard, the parallel strategy accumulates
with early stopping; the accumulated matches are then sorted by count
descending and truncated to `maxResults`.  `pat` is the normalized pattern. -/
def specSearch (env : Env) (pat : String) (maxResults : Nat)
    (files : List String) : List AnswerMatch :=
  let healthy := files.filterMap env.chunkStore
  let collected :=
    if (analyzePattern pat).searchStrategy = SearchStrategy.parallelOptimized
    then parScan pat.data maxResults healthy []
    else healthy.flatMap (scanChunkDirect pat.data)
  (sortByCountDesc collected).take maxResults

/-- The clue list `getClues` consults for a normalized answer on loader state
`s`: the owning shard from `(length, sanitize(firstChar))`, loaded through
`loadChunk`, then the chunk's clue entry (absent entry ⇒ `[]`); `none` when
the answer is empty, the manifest has no such bucket, or the shard fails to
load. -/
def cluesSource (env : Env) (s : LoaderState) (normalized : String) :
    Option (List String) :=
  match normalized.data with
  | [] => none
  | firstLetter :: _ =>
      match s.manifest.bind (fun m => assocGet m.chunks normalized.length) with
      | none => none
      | some lengthChunks =>
          match assocGet lengthChunks (sanitizeChar firstLetter) with
          | none => none
          | some fileName =>
              match loadChunk env s fileName with
              | .error _ => none
              | .ok pr => some ((assocGet pr.1.clues normalized).getD [])

/-- Concrete manifest for witnesses: three length-5 buckets. -/
def mWit : ChunkManifest :=
  ⟨3, 3, "2024-01-01T00:00:00Z", [(5, [('A', "a5"), ('B', "b5"), ('C', "c5")])]⟩

/-- Concrete store for witnesses: shard `b5` always fails to load. -/
def storeWit : String → Option Chunk := fun f =>
  if f = "a5" then
    some ⟨[⟨"APPLE", 12⟩, ⟨"AMPLE", 5⟩, ⟨"AXPLE", 3⟩],
      [("APPLE", ["a fruit", "a fruit", "a tech company"])]⟩
  else if f = "c5" then some ⟨[⟨"CPPLE", 7⟩], []⟩
  else none

/-- Concrete bucket for witnesses. -/
def envWit : Env := ⟨some mWit, storeWit⟩

/-- Concrete bucket whose single length-1 shard holds 60 matching answers,
to separate `maxResults` defaults 50 and 100. -/
def envWit9 : Env :=
  ⟨some ⟨1, 1, "2024-01-01T00:00:00Z", [(1, [('A', "a1")])]⟩,
    fun f =>
      if f = "a1" then some ⟨(List.range 60).map (fun i => ⟨"A", i⟩), []⟩
      else none⟩

/-! ### Association-map lemmas -/

theorem assocGet_eq_none {κ α : Type} [DecidableEq κ]
    (m : List (κ × α)) (k : κ) (h : ∀ p ∈ m, p.1 ≠ k) :
    assocGet m k = none := by
  induction m with
  | nil => rfl
  | cons p ps ih =>
    have hp := h p (List.mem_cons_self p ps)
    simp only [assocGet, if_neg hp]
    exact ih fun q hq => h q (List.mem_cons_of_mem p hq)

theorem assocGet_mem {κ α : Type} [DecidableEq κ]
    {m : List (κ × α)} {k : κ} {v : α} (h : assocGet m k = some v) :
    (k, v) ∈ m := by
  induction m with
  | nil => simp [assocGet] at h
  | cons p ps ih =>
    by_cases hp : p.1 = k
    · simp only [assocGet, if_pos hp] at h
      have hpe : p = (k, v) := by
        obtain ⟨p1, p2⟩ := p
        simp only at hp
        injection h with h2
        rw [hp]
        exact congrArg (Prod.mk k) h2
      rw [← hpe]
      exact List.mem_cons_self p ps
    · simp only [assocGet, if_neg hp] at h
      exact List.mem_cons_of_mem p (ih h)

theorem mapSet_of_get_none {α : Type} {m : List (String × α)} {k : String}
    (v : α) (h : assocGet m k = none) : mapSet m k v = m ++ [(k, v)] := by
  simp [mapSet, h]

theorem mapSet_mem {α : Type} {m : List (String × α)} {k : String} {v : α}
    {p : String × α} (h : p ∈ mapSet m k v) : p ∈ m ∨ p.1 = k := by
  unfold mapSet at h
  split at h
  · rcases List.mem_map.mp h with ⟨q, hq, hqe⟩
    by_cases hqk : q.1 = k
    · right
      rw [if_pos hqk] at hqe
      rw [← hqe]
    · left
      rw [if_neg hqk] at hqe
      rw [← hqe]
      exact hq
  · rcases List.mem_append.mp h with h' | h'
    · exact Or.inl h'
    · right
      rw [List.mem_singleton.mp h']

theorem mapSet_length_le {α : Type} (m : List (String × α)) (k : String)
    (v : α) : (mapSet m k v).length ≤ m.length + 1 := by
  unfold mapSet
  split
  · simp
  · simp

theorem mapDelete_mem {α : Type} {m : List (String × α)} {k : String}
    {p : String × α} (h : p ∈ mapDelete m k) : p ∈ m :=
  List.mem_of_mem_filter h

theorem mapDelete_cons_self {α : Type} (p : String × α)
    (m : List (String × α)) : mapDelete (p :: m) p.1 = mapDelete m p.1 := by
  simp [mapDelete]

theorem mapDelete_length_le {α : Type} (m : List (String × α)) (k : String) :
    (mapDelete m k).length ≤ m.length :=
  List.length_filter_le _ m

theorem mapDelete_eq_self {α : Type} {m : List (String × α)} {k : String}
    (h : ∀ p ∈ m, p.1 ≠ k) : mapDelete m k = m := by
  apply List.filter_eq_self.mpr
  intro p hp
  exact bne_iff_ne.mpr (h p hp)

/-! ### Shard-cache FIFO behaviour -/

theorem chunkEvict_good {c : List (String × Chunk)}
    (hlen : c.length ≤ 11) (hne : ∀ p ∈ c, p.1 ≠ "") :
    GoodChunkCache (chunkEvict c) := by
  unfold chunkEvict GoodChunkCache
  split
  · next hlong =>
    cases c with
    | nil => simp at hlong
    | cons q rest =>
      simp only [List.head?_cons]
      rw [if_pos (hne q (List.mem_cons_self q rest))]
      refine ⟨?_, fun p hp => hne p (mapDelete_mem hp)⟩
      calc (mapDelete (q :: rest) q.1).length
          = (mapDelete rest q.1).length := by rw [mapDelete_cons_self]
        _ ≤ rest.length := mapDelete_length_le _ _
        _ ≤ 10 := by
            simp only [List.length_cons] at hlen
            omega
  · next hshort => exact ⟨by omega, hne⟩

theorem loadChunk_hit {env : Env} {s : LoaderState} {f : String} {c : Chunk}
    (h : assocGet s.chunkCache f = some c) : loadChunk env s f = .ok (c, s) := by
  simp [loadChunk, h]

theorem loadChunk_miss {env : Env} {s : LoaderState} {f : String}
    {chunk : Chunk} (hget : assocGet s.chunkCache f = none)
    (hst : env.chunkStore f = some chunk) :
    loadChunk env s f
      = .ok (chunk,
          { s with chunkCache := chunkEvict (s.chunkCache ++ [(f, chunk)]) }) := by
  simp [loadChunk, hget, hst, mapSet_of_get_none chunk hget]

theorem loadChunk_fail {env : Env} {s : LoaderState} {f : String}
    (hget : assocGet s.chunkCache f = none)
    (hst : env.chunkStore f = none) : loadChunk env s f = .error () := by
  simp [loadChunk, hget, hst]

theorem loadChunk_good {env : Env} {s : LoaderState} {f : String}
    (hf : f ≠ "") (hg : GoodChunkCache s.chunkCache) :
    GoodChunkCache
      (match loadChunk env s f with
        | .ok r => r.2
        | .error _ => s).chunkCache := by
  obtain ⟨hlen, hne⟩ := hg
  cases hget : assocGet s.chunkCache f with
  | some c => rw [loadChunk_hit hget]; exact ⟨hlen, hne⟩
  | none =>
    cases hst : env.chunkStore f with
    | none => rw [loadChunk_fail hget hst]; exact ⟨hlen, hne⟩
    | some chunk =>
      rw [loadChunk_miss hget hst]
      apply chunkEvict_good
      · simp only [List.length_append, List.length_singleton, List.length_nil, List.length_cons, List.length_map]
        omega
      · intro p hp
        rcases List.mem_append.mp hp with h' | h'
        · exact hne p h'
        · rw [List.mem_singleton.mp h']
          exact hf

theorem runChunkLoads_cons (env : Env) (f : String) (fs : List String)
    (s : LoaderState) :
    runChunkLoads env (f :: fs) s
      = runChunkLoads env fs
          (match loadChunk env s f with
            | .ok r => r.2
            | .error _ => s) := by
  simp only [runChunkLoads, List.foldl_cons]

theorem runChunkLoads_good (env : Env) :
    ∀ (files : List String) (s : LoaderState),
      (∀ f ∈ files, f ≠ "") → GoodChunkCache s.chunkCache →
      GoodChunkCache (runChunkLoads env files s).chunkCache := by
  intro files
  induction files with
  | nil => intro s _ hg; exact hg
  | cons f fs ih =>
    intro s hf hg
    rw [runChunkLoads_cons]
    exact ih _ (fun g hg' => hf g (List.mem_cons_of_mem f hg'))
      (loadChunk_good (hf f (List.mem_cons_self f fs)) hg)

theorem assocGet_eq_none_of_not_mem_keys {α : Type}
    {m : List (String × α)} {k : String} (h : k ∉ m.map Prod.fst) :
    assocGet m k = none := by
  apply assocGet_eq_none
  intro p hp hpk
  exact h (List.mem_map.mpr ⟨p, hp, hpk⟩)

theorem chunkEvict_of_le {c : List (String × Chunk)} (h : c.length ≤ 10) :
    chunkEvict c = c := by
  unfold chunkEvict
  rw [if_neg (by omega)]

theorem chunkEvict_cons_of_gt {q : String × Chunk}
    {rest : List (String × Chunk)} (h : (q :: rest).length > 10)
    (hq : q.1 ≠ "") (hnodup : ((q :: rest).map Prod.fst).Nodup) :
    chunkEvict (q :: rest) = rest := by
  unfold chunkEvict
  rw [if_pos h]
  simp only [List.head?_cons]
  rw [if_pos hq, mapDelete_cons_self]
  apply mapDelete_eq_self
  intro p hp hpq
  simp only [List.map_cons, List.nodup_cons] at hnodup
  exact hnodup.1 (List.mem_map.mpr ⟨p, hp, hpq⟩)

theorem runChunkLoads_keys (env : Env) :
    ∀ (files : List String) (s : LoaderState),
      files.Nodup →
      (∀ f ∈ files, f ≠ "") →
      (∀ f ∈ files, (env.chunkStore f).isSome) →
      (∀ f ∈ files, f ∉ s.chunkCache.map Prod.fst) →
      (s.chunkCache.map Prod.fst).Nodup →
      (∀ p ∈ s.chunkCache, p.1 ≠ "") →
      s.chunkCache.length ≤ 10 →
      (runChunkLoads env files s).chunkCache.map Prod.fst
        = files.foldl (fifoCap 10) (s.chunkCache.map Prod.fst) := by
  intro files
  induction files with
  | nil => intro s _ _ _ _ _ _ _; rfl
  | cons f fs ih =>
    intro s hnd hne hst hdisj hknd hkne hlen
    have hfmem : f ∈ f :: fs := List.mem_cons_self f fs
    have hget : assocGet s.chunkCache f = none :=
      assocGet_eq_none_of_not_mem_keys (hdisj f hfmem)
    obtain ⟨chunk, hchunk⟩ := Option.isSome_iff_exists.mp (hst f hfmem)
    rw [runChunkLoads_cons, loadChunk_miss hget hchunk]
    simp only [List.foldl_cons]
    have hfnotin : f ∉ s.chunkCache.map Prod.fst := hdisj f hfmem
    have hfns : f ∉ fs := (List.nodup_cons.mp hnd).1
    by_cases hlong : (s.chunkCache ++ [(f, chunk)]).length > 10
    · cases hc : s.chunkCache with
      | nil =>
        exfalso
        rw [hc] at hlong
        simp at hlong
      | cons q rest =>
        rw [hc] at hlong hget hfnotin hknd hkne hlen
        rw [List.cons_append] at hlong ⊢
        have hkeys1 : ((q :: (rest ++ [(f, chunk)])).map Prod.fst).Nodup := by
          simp only [List.map_cons, List.map_append, List.map_singleton] at hknd ⊢
          simp only [List.nodup_cons] at hknd ⊢
          simp only [List.map_cons, List.mem_cons] at hfnotin
          constructor
          · intro hmem
            rcases List.mem_append.mp hmem with h' | h'
            · exact hknd.1 h'
            · rw [List.mem_singleton.mp h'] at hfnotin
              exact hfnotin (Or.inl rfl)
          · apply List.Nodup.append hknd.2 (List.nodup_singleton f)
            intro a ha hb
            rw [List.mem_singleton.mp hb] at ha
            exact hfnotin (Or.inr ha)
        rw [chunkEvict_cons_of_gt hlong (hkne q (List.mem_cons_self q rest)) hkeys1]
        have hstep : fifoCap 10 ((q :: rest).map Prod.fst) f
            = (rest ++ [(f, chunk)]).map Prod.fst := by
          unfold fifoCap
          simp only [List.map_cons, List.length_cons, List.map_append,
            List.map_singleton]
          rw [if_pos (by
            simp only [List.cons_append, List.length_append, List.length_cons,
              List.length_singleton, List.length_nil, List.length_cons, List.length_map]
            simp only [List.length_cons, List.length_append,
              List.length_singleton, List.length_nil, List.length_cons, List.length_map] at hlong
            omega)]
          simp
        rw [hstep]
        apply ih
        · exact (List.nodup_cons.mp hnd).2
        · exact fun g hg => hne g (List.mem_cons_of_mem f hg)
        · exact fun g hg => hst g (List.mem_cons_of_mem f hg)
        · intro g hg
          simp only [List.map_append, List.map_cons, List.map_singleton]
          intro hmem
          rcases List.mem_append.mp hmem with h' | h'
          · have := hdisj g (List.mem_cons_of_mem f hg)
            rw [hc] at this
            simp only [List.map_cons, List.mem_cons] at this
            exact this (Or.inr h')
          · rw [List.mem_singleton.mp h'] at hg
            exact hfns hg
        · exact (List.nodup_cons.mp (by
            simpa only [List.map_cons, List.map_append, List.map_singleton,
              List.cons_append] using hkeys1)).2
        · intro p hp
          rcases List.mem_append.mp hp with h' | h'
          · exact hkne p (List.mem_cons_of_mem q h')
          · rw [List.mem_singleton.mp h']
            exact hne f hfmem
        · simp only [List.length_append, List.length_singleton, List.length_nil, List.length_cons, List.length_map]
          simp only [List.length_cons] at hlen
          omega
    · rw [chunkEvict_of_le (by omega)]
      have hstep : fifoCap 10 (s.chunkCache.map Prod.fst) f
          = (s.chunkCache ++ [(f, chunk)]).map Prod.fst := by
        unfold fifoCap
        rw [if_neg (by
          simp only [List.length_append, List.length_map, List.length_singleton, List.length_nil, List.length_cons, List.length_map]
          simp only [List.length_append, List.length_singleton, List.length_nil, List.length_cons, List.length_map] at hlong
          omega)]
        simp
      rw [hstep]
      apply ih
      · exact (List.nodup_cons.mp hnd).2
      · exact fun g hg => hne g (List.mem_cons_of_mem f hg)
      · exact fun g hg => hst g (List.mem_cons_of_mem f hg)
      · intro g hg
        simp only [List.map_append, List.map_singleton]
        intro hmem
        rcases List.mem_append.mp hmem with h' | h'
        · exact hdisj g (List.mem_cons_of_mem f hg) h'
        · rw [List.mem_singleton.mp h'] at hg
          exact hfns hg
      · simp only [List.map_append, List.map_singleton]
        apply List.Nodup.append hknd (List.nodup_singleton f)
        intro a ha hb
        rw [List.mem_singleton.mp hb] at ha
        exact hfnotin ha
      · intro p hp
        rcases List.mem_append.mp hp with h' | h'
        · exact hkne p h'
        · rw [List.mem_singleton.mp h']
          exact hne f hfmem
      · simp only [List.length_append, List.length_singleton, List.length_nil, List.length_cons, List.length_map] at hlong ⊢
        omega

theorem foldl_fifoCap_drop (cap : Nat) :
    ∀ (ks L : List String), L.length ≤ cap →
      ks.foldl (fifoCap cap) L = (L ++ ks).drop ((L ++ ks).length - cap) := by
  intro ks
  induction ks with
  | nil =>
    intro L hL
    simp only [List.foldl_nil, List.append_nil]
    rw [Nat.sub_eq_zero_of_le hL, List.drop_zero]
  | cons k ks ih =>
    intro L hL
    simp only [List.foldl_cons]
    by_cases hlong : (L ++ [k]).length > cap
    · have hfifo : fifoCap cap L k = (L ++ [k]).tail := by
        unfold fifoCap
        rw [if_pos hlong]
      rw [hfifo]
      have htl : (L ++ [k]).tail.length ≤ cap := by
        simp only [List.length_tail, List.length_append, List.length_singleton, List.length_nil, List.length_cons, List.length_map]
        omega
      rw [ih _ htl]
      cases hLk : L ++ [k] with
      | nil => simp at hLk
      | cons x u =>
        have hLcons : L ++ k :: ks = x :: (u ++ ks) := by
          rw [← List.singleton_append, ← List.append_assoc, hLk, List.cons_append]
        rw [hLcons]
        simp only [List.tail_cons]
        have hlen1 : u.length = L.length := by
          have := congrArg List.length hLk
          simp at this
          omega
        have hge : cap ≤ (u ++ ks).length := by
          simp only [List.length_append, List.length_singleton, List.length_nil, List.length_cons, List.length_map] at hlong
          simp only [List.length_append]
          omega
        have : (x :: (u ++ ks)).length - cap = ((u ++ ks).length - cap) + 1 := by
          simp only [List.length_cons]
          omega
        rw [this, List.drop_succ_cons]
    · have hfifo : fifoCap cap L k = L ++ [k] := by
        unfold fifoCap
        rw [if_neg hlong]
      rw [hfifo, ih _ (by omega)]
      rw [List.append_assoc, List.singleton_append]

/-! ### Result-cache FIFO behaviour -/

theorem getCacheKey_ne_empty (p : String) : getCacheKey p ≠ "" := by
  unfold getCacheKey
  intro h
  have hd : ("pattern:" ++ jsToUpper p).data = "".data := congrArg String.data h
  rw [String.data_append] at hd
  simp at hd

theorem resultEvict_of_lt {c : List (String × CachedResult)}
    (h : c.length < 100) : resultEvict c = c := by
  unfold resultEvict
  rw [if_neg (by omega)]

theorem resultEvict_cons_of_ge {q : String × CachedResult}
    {rest : List (String × CachedResult)} (h : (q :: rest).length ≥ 100)
    (hq : q.1 ≠ "") (hnodup : ((q :: rest).map Prod.fst).Nodup) :
    resultEvict (q :: rest) = rest := by
  unfold resultEvict
  rw [if_pos h]
  simp only [List.head?_cons]
  rw [if_pos hq, mapDelete_cons_self]
  apply mapDelete_eq_self
  intro p hp hpq
  simp only [List.map_cons, List.nodup_cons] at hnodup
  exact hnodup.1 (List.mem_map.mpr ⟨p, hp, hpq⟩)

theorem resultEvict_length {c : List (String × CachedResult)}
    (hlen : c.length ≤ 100) (hne : ∀ p ∈ c, p.1 ≠ "") :
    (resultEvict c).length ≤ 99 := by
  unfold resultEvict
  split
  · next hge =>
    cases c with
    | nil => simp at hge
    | cons q rest =>
      simp only [List.head?_cons]
      rw [if_pos (hne q (List.mem_cons_self q rest))]
      calc (mapDelete (q :: rest) q.1).length
          = (mapDelete rest q.1).length := by rw [mapDelete_cons_self]
        _ ≤ rest.length := mapDelete_length_le _ _
        _ ≤ 99 := by
            simp only [List.length_cons] at hlen
            omega
  · next hlt => omega

theorem resultEvict_mem {c : List (String × CachedResult)}
    {p : String × CachedResult} (h : p ∈ resultEvict c) : p ∈ c := by
  unfold resultEvict at h
  split at h
  · cases c with
    | nil => exact h
    | cons q rest =>
      simp only [List.head?_cons] at h
      split at h
      · exact mapDelete_mem h
      · exact h
  · exact h

theorem setCachedResult_good {now : Nat} {s : LoaderState} {pat : String}
    {results : List AnswerMatch} (hg : GoodResultCache s.resultCache) :
    GoodResultCache (setCachedResult now s pat results).resultCache := by
  obtain ⟨hlen, hne⟩ := hg
  unfold setCachedResult GoodResultCache
  simp only
  constructor
  · calc (mapSet (resultEvict s.resultCache) (getCacheKey pat)
          ⟨results, now⟩).length
        ≤ (resultEvict s.resultCache).length + 1 := mapSet_length_le _ _ _
      _ ≤ 100 := by
          have := resultEvict_length hlen hne
          omega
  · intro p hp
    rcases mapSet_mem hp with h' | h'
    · exact hne p (resultEvict_mem h')
    · rw [h']
      exact getCacheKey_ne_empty pat

theorem runResultInserts_cons (now : Nat) (p : String × List AnswerMatch)
    (ps : List (String × List AnswerMatch)) (s : LoaderState) :
    runResultInserts now (p :: ps) s
      = runResultInserts now ps (setCachedResult now s p.1 p.2) := by
  simp only [runResultInserts, List.foldl_cons]

theorem runResultInserts_good (now : Nat) :
    ∀ (ps : List (String × List AnswerMatch)) (s : LoaderState),
      GoodResultCache s.resultCache →
      GoodResultCache (runResultInserts now ps s).resultCache := by
  intro ps
  induction ps with
  | nil => intro s hg; exact hg
  | cons p ps ih =>
    intro s hg
    rw [runResultInserts_cons]
    exact ih _ (setCachedResult_good hg)

theorem runResultInserts_keys (now : Nat) :
    ∀ (ps : List (String × List AnswerMatch)) (s : LoaderState),
      (ps.map (fun p => getCacheKey p.1)).Nodup →
      (∀ p ∈ ps, getCacheKey p.1 ∉ s.resultCache.map Prod.fst) →
      (s.resultCache.map Prod.fst).Nodup →
      (∀ q ∈ s.resultCache, q.1 ≠ "") →
      s.resultCache.length ≤ 100 →
      (runResultInserts now ps s).resultCache.map Prod.fst
        = (ps.map (fun p => getCacheKey p.1)).foldl (fifoCap 100)
            (s.resultCache.map Prod.fst) := by
  intro ps
  induction ps with
  | nil => intro s _ _ _ _ _; rfl
  | cons p ps ih =>
    intro s hnd hdisj hknd hkne hlen
    have hpmem : p ∈ p :: ps := List.mem_cons_self p ps
    have hkfresh : getCacheKey p.1 ∉ s.resultCache.map Prod.fst := hdisj p hpmem
    have hkns : getCacheKey p.1 ∉ ps.map (fun q => getCacheKey q.1) := by
      have := (List.nodup_cons.mp (by
        simpa only [List.map_cons] using hnd)).1
      exact this
    rw [runResultInserts_cons]
    simp only [List.map_cons, List.foldl_cons]
    have hset : (setCachedResult now s p.1 p.2).resultCache
        = resultEvict s.resultCache ++ [(getCacheKey p.1, ⟨p.2, now⟩)] := by
      unfold setCachedResult
      simp only
      apply mapSet_of_get_none
      apply assocGet_eq_none_of_not_mem_keys
      intro hmem
      exact hkfresh (List.mem_map.mpr (by
        rcases List.mem_map.mp hmem with ⟨q, hq, hqe⟩
        exact ⟨q, resultEvict_mem hq, hqe⟩))
    by_cases hge : s.resultCache.length ≥ 100
    · cases hc : s.resultCache with
      | nil =>
        rw [hc] at hge
        simp at hge
      | cons q rest =>
        rw [hc] at hge hkfresh hknd hkne hlen hset
        rw [resultEvict_cons_of_ge hge (hkne q (List.mem_cons_self q rest)) hknd]
          at hset
        have hstep : fifoCap 100 ((q :: rest).map Prod.fst) (getCacheKey p.1)
            = (rest ++ [(getCacheKey p.1, (⟨p.2, now⟩ : CachedResult))]).map
                Prod.fst := by
          unfold fifoCap
          simp only [List.map_cons, List.map_append, List.map_singleton,
            List.length_cons, List.length_append, List.length_map,
            List.length_singleton, List.length_nil]
          rw [if_pos (by
            simp only [List.length_cons] at hge
            omega)]
          simp
        rw [hstep]
        have hnewstate : (setCachedResult now s p.1 p.2).resultCache
            = rest ++ [(getCacheKey p.1, ⟨p.2, now⟩)] := hset
        have := ih (setCachedResult now s p.1 p.2)
          (by
            simpa only [List.map_cons] using (List.nodup_cons.mp (by
              simpa only [List.map_cons] using hnd)).2)
          (by
            intro g hg
            rw [hnewstate]
            simp only [List.map_append, List.map_singleton]
            intro hmem
            rcases List.mem_append.mp hmem with h' | h'
            · have := hdisj g (List.mem_cons_of_mem p hg)
              rw [hc] at this
              simp only [List.map_cons, List.mem_cons] at this
              exact this (Or.inr h')
            · exact hkns (List.mem_map.mpr ⟨g, hg, List.mem_singleton.mp h'⟩))
          (by
            rw [hnewstate]
            simp only [List.map_append, List.map_singleton]
            apply List.Nodup.append
            · exact (List.nodup_cons.mp (by
                simpa only [List.map_cons] using hknd)).2
            · exact List.nodup_singleton _
            · intro a ha hb
              rw [List.mem_singleton.mp hb] at ha
              have : getCacheKey p.1 ∈ (q :: rest).map Prod.fst := by
                simp only [List.map_cons, List.mem_cons]
                exact Or.inr ha
              exact hkfresh this)
          (by
            intro g hg
            rw [hnewstate] at hg
            rcases List.mem_append.mp hg with h' | h'
            · exact hkne g (List.mem_cons_of_mem q h')
            · rw [List.mem_singleton.mp h']
              exact getCacheKey_ne_empty p.1)
          (by
            rw [hnewstate]
            simp only [List.length_append, List.length_singleton,
              List.length_nil, List.length_cons]
            simp only [List.length_cons] at hlen
            omega)
        rw [this, hnewstate]
    · rw [resultEvict_of_lt (by omega)] at hset
      have hstep : fifoCap 100 (s.resultCache.map Prod.fst) (getCacheKey p.1)
          = (s.resultCache ++ [(getCacheKey p.1,
              (⟨p.2, now⟩ : CachedResult))]).map Prod.fst := by
        unfold fifoCap
        rw [if_neg (by
          simp only [List.length_append, List.length_map,
            List.length_singleton, List.length_nil, List.length_cons]
          omega)]
        simp
      rw [hstep]
      have := ih (setCachedResult now s p.1 p.2)
        (by
          simpa only [List.map_cons] using (List.nodup_cons.mp (by
            simpa only [List.map_cons] using hnd)).2)
        (by
          intro g hg
          rw [hset]
          simp only [List.map_append, List.map_singleton]
          intro hmem
          rcases List.mem_append.mp hmem with h' | h'
          · exact hdisj g (List.mem_cons_of_mem p hg) h'
          · exact hkns (List.mem_map.mpr ⟨g, hg, List.mem_singleton.mp h'⟩))
        (by
          rw [hset]
          simp only [List.map_append, List.map_singleton]
          apply List.Nodup.append hknd (List.nodup_singleton _)
          intro a ha hb
          rw [List.mem_singleton.mp hb] at ha
          exact hkfresh ha)
        (by
          intro g hg
          rw [hset] at hg
          rcases List.mem_append.mp hg with h' | h'
          · exact hkne g h'
          · rw [List.mem_singleton.mp h']
            exact getCacheKey_ne_empty p.1)
        (by
          rw [hset]
          simp only [List.length_append, List.length_singleton,
            List.length_nil, List.length_cons]
          omega)
      rw [this, hset]

/-! ### Search-engine characterization -/

theorem chunkEvict_mem {c : List (String × Chunk)} {p : String × Chunk}
    (h : p ∈ chunkEvict c) : p ∈ c := by
  unfold chunkEvict at h
  split at h
  · cases c with
    | nil => exact h
    | cons q rest =>
      simp only [List.head?_cons] at h
      split at h
      · exact mapDelete_mem h
      · exact h
  · exact h

theorem loadChunk_consistent_none {env : Env} {s : LoaderState} {f : String}
    (hcc : CacheConsistent env s.chunkCache) (h : env.chunkStore f = none) :
    loadChunk env s f = .error () := by
  cases hget : assocGet s.chunkCache f with
  | some c =>
    have h2 : env.chunkStore f = some c := hcc _ (assocGet_mem hget)
    rw [h] at h2
    simp at h2
  | none => exact loadChunk_fail hget h

theorem loadChunk_consistent_some {env : Env} {s : LoaderState} {f : String}
    {c : Chunk} (hcc : CacheConsistent env s.chunkCache)
    (h : env.chunkStore f = some c) :
    ∃ s', loadChunk env s f = .ok (c, s') ∧
      CacheConsistent env s'.chunkCache ∧
      s'.manifest = s.manifest ∧ s'.resultCache = s.resultCache := by
  cases hget : assocGet s.chunkCache f with
  | some c' =>
    have h2 : env.chunkStore f = some c' := hcc _ (assocGet_mem hget)
    rw [h] at h2
    injection h2 with h3
    refine ⟨s, ?_, hcc, rfl, rfl⟩
    rw [loadChunk_hit hget, h3]
  | none =>
    refine ⟨_, loadChunk_miss hget h, ?_, rfl, rfl⟩
    intro p hp
    have hp1 := chunkEvict_mem hp
    rcases List.mem_append.mp hp1 with h' | h'
    · exact hcc p h'
    · rw [List.mem_singleton.mp h']
      exact h

theorem directScan_spec (env : Env) (pat : List Char) :
    ∀ (files : List String) (s : LoaderState) (acc : List AnswerMatch),
      CacheConsistent env s.chunkCache →
      (directScan env pat files s acc).1
          = acc ++ (files.filterMap env.chunkStore).flatMap
              (scanChunkDirect pat) ∧
      CacheConsistent env (directScan env pat files s acc).2.chunkCache ∧
      (directScan env pat files s acc).2.manifest = s.manifest ∧
      (directScan env pat files s acc).2.resultCache = s.resultCache := by
  intro files
  induction files with
  | nil =>
    intro s acc hcc
    exact ⟨by simp [directScan], hcc, rfl, rfl⟩
  | cons f fs ih =>
    intro s acc hcc
    cases hst : env.chunkStore f with
    | none =>
      have hd : directScan env pat (f :: fs) s acc
          = directScan env pat fs s acc := by
        simp only [directScan, loadChunk_consistent_none hcc hst]
      rw [hd]
      obtain ⟨h1, h2, h3, h4⟩ := ih s acc hcc
      refine ⟨?_, h2, h3, h4⟩
      rw [h1]
      simp [List.filterMap_cons, hst]
    | some c =>
      obtain ⟨s', hload, hcc', hman, hres⟩ := loadChunk_consistent_some hcc hst
      have hd : directScan env pat (f :: fs) s acc
          = directScan env pat fs s' (acc ++ scanChunkDirect pat c) := by
        simp only [directScan, hload]
      rw [hd]
      obtain ⟨h1, h2, h3, h4⟩ := ih s' (acc ++ scanChunkDirect pat c) hcc'
      refine ⟨?_, h2, by rw [h3, hman], by rw [h4, hres]⟩
      rw [h1]
      simp [List.filterMap_cons, hst, List.append_assoc]

theorem loadChunksParallel_spec (env : Env) :
    ∀ (files : List String) (s : LoaderState),
      CacheConsistent env s.chunkCache →
      (loadChunksParallel env s files).1 = files.filterMap env.chunkStore ∧
      CacheConsistent env (loadChunksParallel env s files).2.chunkCache ∧
      (loadChunksParallel env s files).2.manifest = s.manifest ∧
      (loadChunksParallel env s files).2.resultCache = s.resultCache := by
  intro files
  induction files with
  | nil =>
    intro s hcc
    exact ⟨by simp [loadChunksParallel], hcc, rfl, rfl⟩
  | cons f fs ih =>
    intro s hcc
    cases hst : env.chunkStore f with
    | none =>
      have hd : loadChunksParallel env s (f :: fs)
          = loadChunksParallel env s fs := by
        simp only [loadChunksParallel, loadChunk_consistent_none hcc hst]
      rw [hd]
      obtain ⟨h1, h2, h3, h4⟩ := ih s hcc
      refine ⟨?_, h2, h3, h4⟩
      rw [h1]
      simp [List.filterMap_cons, hst]
    | some c =>
      obtain ⟨s', hload, hcc', hman, hres⟩ := loadChunk_consistent_some hcc hst
      have hd : loadChunksParallel env s (f :: fs)
          = (c :: (loadChunksParallel env s' fs).1,
             (loadChunksParallel env s' fs).2) := by
        simp only [loadChunksParallel, hload]
      rw [hd]
      obtain ⟨h1, h2, h3, h4⟩ := ih s' hcc'
      refine ⟨?_, h2, by rw [h3, hman], by rw [h4, hres]⟩
      rw [h1]
      simp [List.filterMap_cons, hst]

theorem getRelevantChunksM_ok (m : ChunkManifest) (pat : String)
    (h : pat.data ≠ []) :
    ∃ files, getRelevantChunksM (some m) pat = .ok files := by
  unfold getRelevantChunksM
  cases hd : pat.data with
  | nil => exact absurd hd h
  | cons c rest =>
    cases h1 : assocGet m.chunks pat.length with
    | none =>
      by_cases hc : c = '?'
      · exact ⟨[], by simp [hc, h1]⟩
      · exact ⟨[], by simp [hc, h1]⟩
    | some lc =>
      by_cases hc : c = '?'
      · exact ⟨lc.map Prod.snd, by simp [hc, h1]⟩
      · cases h2 : assocGet lc (sanitizeChar c) with
        | none => exact ⟨[], by simp [hc, h1, h2]⟩
        | some fle =>
          by_cases hfe : fle = ""
          · exact ⟨[], by simp [hc, h1, h2, hfe]⟩
          · exact ⟨[fle], by simp [hc, h1, h2, hfe]⟩

theorem getCachedResult_miss {now : Nat} {s : LoaderState} {p : String}
    (h : assocGet s.resultCache (getCacheKey p) = none) :
    getCachedResult now s p = (none, s) := by
  simp only [getCachedResult, h]

theorem findMatchingAnswers_manifest_fail {env : Env} {now : Nat}
    {s0 : LoaderState} {pat : String} {maxResults : Nat}
    (hm : env.manifestObj = none) (hs : s0.manifest = none) :
    findMatchingAnswers env now s0 pat maxResults = .error () := by
  simp [findMatchingAnswers, loadManifest, hs, hm]

theorem findMatchingAnswers_length_le {env : Env} {now : Nat}
    {s0 : LoaderState} {pat : String} {maxResults : Nat}
    {r : List AnswerMatch} {s' : LoaderState}
    (h : findMatchingAnswers env now s0 pat maxResults = .ok (r, s')) :
    r.length ≤ maxResults := by
  unfold findMatchingAnswers at h
  split at h
  · exact absurd h (by simp)
  · dsimp only at h
    split at h
    · injection h with h1
      have h2 := congrArg Prod.fst h1
      simp only at h2
      rw [← h2]
      simp only [List.length_take]
      omega
    · split at h
      · exact absurd h (by simp)
      · split at h
        · injection h with h1
          have h2 := congrArg Prod.fst h1
          simp only at h2
          rw [← h2]
          simp only [List.length_take]
          omega
        · injection h with h1
          have h2 := congrArg Prod.fst h1
          simp only at h2
          rw [← h2]
          simp only [List.length_take]
          omega

theorem findMatchingAnswers_run {env : Env} {m : ChunkManifest} {now : Nat}
    {s0 : LoaderState} {pat : String} {maxResults : Nat}
    (hm : env.manifestObj = some m) (hs : s0.manifest = none)
    (hcc : CacheConsistent env s0.chunkCache)
    (hmiss : assocGet s0.resultCache (getCacheKey (jsToUpper pat)) = none)
    (hp : pat.data ≠ []) :
    ∃ files s',
      getRelevantChunksM (some m) (jsToUpper pat) = .ok files ∧
      findMatchingAnswers env now s0 pat maxResults
        = .ok (specSearch env (jsToUpper pat) maxResults files, s') ∧
      s'.manifest = some m ∧
      s'.resultCache
        = mapSet (resultEvict s0.resultCache) (getCacheKey (jsToUpper pat))
            ⟨specSearch env (jsToUpper pat) maxResults files, now⟩ := by
  have hs1 : loadManifest env s0 = .ok { s0 with manifest := some m } := by
    simp [loadManifest, hs, hm]
  have hnorm : (jsToUpper pat).data ≠ [] := by
    intro hnil
    apply hp
    have h0 : pat.data.map Char.toUpper = [] := hnil
    exact List.map_eq_nil_iff.mp h0
  obtain ⟨files, hfiles⟩ := getRelevantChunksM_ok m (jsToUpper pat) hnorm
  have hgc : getCachedResult now { s0 with manifest := some m } (jsToUpper pat)
      = (none, { s0 with manifest := some m }) := getCachedResult_miss hmiss
  have hcc1 :
      CacheConsistent env ({ s0 with manifest := some m } : LoaderState).chunkCache :=
    hcc
  cases hstrat : (analyzePattern (jsToUpper pat)).searchStrategy with
  | direct =>
    obtain ⟨h1, h2, h3, h4⟩ := directScan_spec env (jsToUpper pat).data files
      { s0 with manifest := some m } [] hcc1
    have hspec : specSearch env (jsToUpper pat) maxResults files
        = (sortByCountDesc (directScan env (jsToUpper pat).data files
            { s0 with manifest := some m } []).1).take maxResults := by
      rw [h1]
      simp [specSearch, hstrat]
    refine ⟨files,
      setCachedResult now
        (directScan env (jsToUpper pat).data files
          { s0 with manifest := some m } []).2 (jsToUpper pat)
        ((sortByCountDesc (directScan env (jsToUpper pat).data files
          { s0 with manifest := some m } []).1).take maxResults),
      hfiles, ?_, ?_, ?_⟩
    · simp only [findMatchingAnswers, hs1, hgc, hfiles, hstrat]
      rw [hspec]
    · simp only [setCachedResult]
      rw [h3]
    · simp only [setCachedResult]
      rw [h4, hspec]
  | parallelOptimized =>
    obtain ⟨h1, h2, h3, h4⟩ := loadChunksParallel_spec env files
      { s0 with manifest := some m } hcc1
    have hspec : specSearch env (jsToUpper pat) maxResults files
        = (sortByCountDesc (parScan (jsToUpper pat).data maxResults
            (loadChunksParallel env { s0 with manifest := some m } files).1
            [])).take maxResults := by
      rw [h1]
      simp [specSearch, hstrat]
    refine ⟨files,
      setCachedResult now
        (loadChunksParallel env { s0 with manifest := some m } files).2
        (jsToUpper pat)
        ((sortByCountDesc (parScan (jsToUpper pat).data maxResults
          (loadChunksParallel env { s0 with manifest := some m } files).1
          [])).take maxResults),
      hfiles, ?_, ?_, ?_⟩
    · simp only [findMatchingAnswers, hs1, hgc, hfiles, hstrat]
      rw [hspec]
    · simp only [setCachedResult]
      rw [h3]
    · simp only [setCachedResult]
      rw [h4, hspec]

/-! ### Sorting -/

theorem sortByCountDesc_sorted (l : List AnswerMatch) :
    List.Sorted (fun a b : AnswerMatch => b.count ≤ a.count) (sortByCountDesc l) :=
  List.sorted_insertionSort _ l

theorem sortByCountDesc_perm (l : List AnswerMatch) :
    (sortByCountDesc l).Perm l :=
  List.perm_insertionSort _ l

/-! ### The compiled matcher (C1) -/

theorem regexAccepts_iff (p a : List Char) :
    regexAccepts p a = true ↔
      (a.length = p.length ∧
        ∀ i, i < p.length →
          ((p.getD i ' ' = '?' → isUpperLetter (a.getD i ' ') = true) ∧
           (p.getD i ' ' ≠ '?' → a.getD i ' ' = p.getD i ' '))) := by
  induction p generalizing a with
  | nil => cases a <;> simp [regexAccepts]
  | cons pc ps ih =>
    cases a with
    | nil => simp [regexAccepts]
    | cons ac as =>
      simp only [regexAccepts, Bool.and_eq_true, List.length_cons, ih as]
      constructor
      · rintro ⟨h0, hlen, hrest⟩
        refine ⟨by omega, ?_⟩
        intro i hi
        cases i with
        | zero =>
          simp only [List.getD_cons_zero]
          by_cases hpc : pc = '?'
          · rw [if_pos hpc] at h0
            exact ⟨fun _ => h0, fun hne => absurd hpc hne⟩
          · rw [if_neg hpc] at h0
            exact ⟨fun h => absurd h hpc, fun _ => (beq_iff_eq.mp h0) ▸ rfl⟩
        | succ n =>
          simp only [List.getD_cons_succ]
          exact hrest n (by omega)
      · rintro ⟨hlen, hall⟩
        have h0 := hall 0 (by omega)
        simp only [List.getD_cons_zero] at h0
        refine ⟨?_, by omega, ?_⟩
        · by_cases hpc : pc = '?'
          · rw [if_pos hpc]
            exact h0.1 hpc
          · rw [if_neg hpc]
            exact beq_iff_eq.mpr (h0.2 hpc).symm
        · intro i hi
          have := hall (i + 1) (by omega)
          simpa only [List.getD_cons_succ] using this

/-- C1: for every normalized pattern `p` (uppercase letters and `?`) and
every candidate answer `a`, the compiled matcher accepts `a` iff `a` has the
same length as `p`, every literal position of `p` equals the same position of
`a`, and every wildcard position of `p` corresponds to exactly one letter of
`a`.  In particular an answer of a different length never matches (the length
equality is part of the right-hand side) and no partial/substring match is
accepted (acceptance forces the conditions on all of `a`). -/
theorem claim1_compiled_matcher (p a : List Char)
    (_hp : ∀ c ∈ p, isUpperLetter c = true ∨ c = '?') :
    regexAccepts p a = true ↔
      (a.length = p.length ∧
        ∀ i, i < p.length →
          ((p.getD i ' ' = '?' → isUpperLetter (a.getD i ' ') = true) ∧
           (p.getD i ' ' ≠ '?' → a.getD i ' ' = p.getD i ' '))) :=
  regexAccepts_iff p a

/-- Witness for C1: the spec's round-trip example, pattern `A?PLE` against
answer `APPLE`. -/
theorem claim1_compiled_matcher_witness :
    regexAccepts "A?PLE".data "APPLE".data = true :=
  (claim1_compiled_matcher "A?PLE".data "APPLE".data (by decide)).mpr (by decide)

/-- C2 counterexample: the literal bucket for `(5, A)` exists in the
manifest with the empty string as its shard file name, yet the code selects
no shard at all — the push sits behind the JS truthiness guard
`if (lengthChunks && lengthChunks[cleanFirstChar])` (line 98) and `""` is
falsy.  The claimed `exactly the one shard of (length, sanitized first
letter) when the bucket exists` is therefore false at this input. -/
theorem claim2_shard_selection_counterexample :
    assocGet [('A', "")] (sanitizeChar 'A') = some "" ∧
    getRelevantChunksM
        (some ⟨1, 1, "2024-01-01T00:00:00Z", [(5, [('A', "")])]⟩)
        "APPLE" ≠ .ok [""] ∧
    getRelevantChunksM
        (some ⟨1, 1, "2024-01-01T00:00:00Z", [(5, [('A', "")])]⟩)
        "APPLE" = .ok [] := by
  refine ⟨by decide, by decide, by decide⟩

/-- C2 (amended): for a non-empty normalized pattern, the candidate shard
set computed from the manifest is exactly the one shard of `(length,
sanitized first letter)` when the first character is a literal, that bucket
exists, and its shard file name is non-empty (JS-truthy); all shards
registered for the pattern's length when the first character is the
wildcard; and empty when the manifest has no entry for that length, the
literal bucket is absent, or the literal bucket's file name is the empty
string. -/
theorem claim2_shard_selection_amended (m : ChunkManifest) (pat : String)
    (fc : Char) (rest : List Char) (hpat : pat.data = fc :: rest) :
    (fc ≠ '?' →
      ∀ lc, assocGet m.chunks pat.length = some lc →
        ((∀ f, assocGet lc (sanitizeChar fc) = some f → f ≠ "" →
            getRelevantChunksM (some m) pat = .ok [f]) ∧
         (assocGet lc (sanitizeChar fc) = some "" →
            getRelevantChunksM (some m) pat = .ok []) ∧
         (assocGet lc (sanitizeChar fc) = none →
            getRelevantChunksM (some m) pat = .ok []))) ∧
    (fc ≠ '?' → assocGet m.chunks pat.length = none →
        getRelevantChunksM (some m) pat = .ok []) ∧
    (fc = '?' →
      ((∀ lc, assocGet m.chunks pat.length = some lc →
          getRelevantChunksM (some m) pat = .ok (lc.map Prod.snd)) ∧
       (assocGet m.chunks pat.length = none →
          getRelevantChunksM (some m) pat = .ok []))) := by
  refine ⟨?_, ?_, ?_⟩
  · intro hfc lc hlc
    refine ⟨fun f hf hfe => ?_, fun hf => ?_, fun hf => ?_⟩
    · simp [getRelevantChunksM, hpat, hfc, hlc, hf, hfe]
    · simp [getRelevantChunksM, hpat, hfc, hlc, hf]
    · simp [getRelevantChunksM, hpat, hfc, hlc, hf]
  · intro hfc hlc
    simp [getRelevantChunksM, hpat, hfc, hlc]
  · intro hfc
    exact ⟨fun lc hlc => by simp [getRelevantChunksM, hpat, hfc, hlc],
           fun hlc => by simp [getRelevantChunksM, hpat, hfc, hlc]⟩

/-- Witness for the amended C2: a manifest with two length-5 buckets; a
literal-first pattern selects the single `(5, A)` shard, a wildcard-first
pattern selects every length-5 shard. -/
theorem claim2_shard_selection_witness :
    getRelevantChunksM
        (some ⟨2, 2, "", [(5, [('A', "chunk_5_A.json"), ('B', "chunk_5_B.json")])]⟩)
        "A?PLE" = .ok ["chunk_5_A.json"] ∧
    getRelevantChunksM
        (some ⟨2, 2, "", [(5, [('A', "chunk_5_A.json"), ('B', "chunk_5_B.json")])]⟩)
        "??PLE" = .ok ["chunk_5_A.json", "chunk_5_B.json"] := by
  constructor
  · exact ((claim2_shard_selection_amended ⟨2, 2, "",
      [(5, [('A', "chunk_5_A.json"), ('B', "chunk_5_B.json")])]⟩
      "A?PLE" 'A' "?PLE".data (by decide)).1 (by decide)
      [('A', "chunk_5_A.json"), ('B', "chunk_5_B.json")] (by decide)).1
      "chunk_5_A.json" (by decide) (by decide)
  · exact ((claim2_shard_selection_amended ⟨2, 2, "",
      [(5, [('A', "chunk_5_A.json"), ('B', "chunk_5_B.json")])]⟩
      "??PLE" '?' "?PLE".data (by decide)).2.2 (by decide)).1
      [('A', "chunk_5_A.json"), ('B', "chunk_5_B.json")] (by decide)

theorem getCachedResult_hit {now : Nat} {s : LoaderState} {p : String}
    {r : CachedResult} (h : assocGet s.resultCache (getCacheKey p) = some r)
    (hfresh : now - r.timestamp ≤ CACHE_TTL) :
    getCachedResult now s p = (some r.results, s) := by
  simp only [getCachedResult, h]
  rw [if_neg (by omega)]

/-- C5 counterexample: the eviction guard `if (firstKey)` is false for the
empty-string key, so after 11 distinct successful loads whose oldest cached
file name is `""` the shard cache holds 11 entries — the claimed `at most 10
entries after any sequence of operations` is violated. -/
theorem claim5_bounded_caches_counterexample :
    (runChunkLoads ⟨none, fun _ => some ⟨[], []⟩⟩
        ["", "a", "b", "c", "d", "e", "f", "g", "h", "i", "j"]
        initState).chunkCache.length = 11 := by decide

/-- C5 (amended): provided no shard file name is the empty string, the shard
cache is bounded by 10 entries; after more than 10 distinct successful loads
it holds exactly the 10 most recently inserted shards; the result cache is
bounded by 100 entries and holds exactly 100 after more than 100 distinct
pattern insertions; and a cache hit (a `loadChunk` hit or a fresh
`getCachedResult` read) leaves the cache — and hence every entry's eviction
position — unchanged. -/
theorem claim5_bounded_caches_amended :
    (∀ (env : Env) (files : List String) (s : LoaderState),
        (∀ f ∈ files, f ≠ "") → GoodChunkCache s.chunkCache →
        (runChunkLoads env files s).chunkCache.length ≤ 10) ∧
    (∀ (env : Env) (files : List String),
        files.Nodup → (∀ f ∈ files, f ≠ "") →
        (∀ f ∈ files, (env.chunkStore f).isSome) → 10 < files.length →
        (runChunkLoads env files initState).chunkCache.map Prod.fst
            = files.drop (files.length - 10) ∧
        (runChunkLoads env files initState).chunkCache.length = 10) ∧
    (∀ (now : Nat) (ps : List (String × List AnswerMatch)) (s : LoaderState),
        GoodResultCache s.resultCache →
        (runResultInserts now ps s).resultCache.length ≤ 100) ∧
    (∀ (now : Nat) (ps : List (String × List AnswerMatch)),
        (ps.map (fun p => getCacheKey p.1)).Nodup → 100 < ps.length →
        (runResultInserts now ps initState).resultCache.length = 100) ∧
    (∀ (env : Env) (s : LoaderState) (f : String) (c : Chunk),
        assocGet s.chunkCache f = some c → loadChunk env s f = .ok (c, s)) ∧
    (∀ (now : Nat) (s : LoaderState) (p : String) (r : CachedResult),
        assocGet s.resultCache (getCacheKey p) = some r →
        now - r.timestamp ≤ CACHE_TTL →
        getCachedResult now s p = (some r.results, s)) := by
  refine ⟨?_, ?_, ?_, ?_, ?_, ?_⟩
  · intro env files s hne hg
    exact (runChunkLoads_good env files s hne hg).1
  · intro env files hnd hne hst hlong
    have hkeys := runChunkLoads_keys env files initState hnd hne hst
      (by intro f _ h; simp [initState] at h)
      (by simp [initState])
      (by intro p hp; simp [initState] at hp)
      (by simp [initState])
    have hdrop := foldl_fifoCap_drop 10 files [] (by simp)
    simp only [List.nil_append, List.length_nil] at hdrop
    simp only [initState, List.map_nil] at hkeys
    rw [hdrop] at hkeys
    simp only [initState]
    refine ⟨hkeys, ?_⟩
    have hlen := congrArg List.length hkeys
    simp only [List.length_map, List.length_drop] at hlen
    rw [hlen]
    omega
  · intro now ps s hg
    exact (runResultInserts_good now ps s hg).1
  · intro now ps hnd hlong
    have hkeys := runResultInserts_keys now ps initState hnd
      (by intro p _ h; simp [initState] at h)
      (by simp [initState])
      (by intro q hq; simp [initState] at hq)
      (by simp [initState])
    have hdrop := foldl_fifoCap_drop 100 (ps.map (fun p => getCacheKey p.1)) []
      (by simp)
    simp only [List.nil_append, List.length_nil] at hdrop
    simp only [initState, List.map_nil] at hkeys
    rw [hdrop] at hkeys
    have hlen := congrArg List.length hkeys
    simp only [List.length_map, List.length_drop] at hlen
    simp only [initState]
    rw [hlen]
    omega
  · intro env s f c h
    exact loadChunk_hit h
  · intro now s p r h hfresh
    exact getCachedResult_hit h hfresh

/-- Witness for the amended C5: eleven distinct non-empty shard loads leave
exactly the last ten in the cache; a shard-cache hit and a fresh result-cache
read leave the state unchanged. -/
theorem claim5_bounded_caches_amended_witness :
    ((runChunkLoads ⟨none, fun _ => some ⟨[], []⟩⟩
        ["a", "b", "c", "d", "e", "f", "g", "h", "i", "j", "k"]
        initState).chunkCache.map Prod.fst
      = ["b", "c", "d", "e", "f", "g", "h", "i", "j", "k"] ∧
     (runChunkLoads ⟨none, fun _ => some ⟨[], []⟩⟩
        ["a", "b", "c", "d", "e", "f", "g", "h", "i", "j", "k"]
        initState).chunkCache.length = 10) ∧
    loadChunk ⟨none, fun _ => none⟩
        ⟨none, [("x", ⟨[], []⟩)], []⟩ "x" = .ok (⟨[], []⟩, ⟨none, [("x", ⟨[], []⟩)], []⟩) ∧
    getCachedResult 100 ⟨none, [], [(getCacheKey "A", ⟨[], 50⟩)]⟩ "A"
      = (some [], ⟨none, [], [(getCacheKey "A", ⟨[], 50⟩)]⟩) := by
  refine ⟨?_, ?_, ?_⟩
  · have := claim5_bounded_caches_amended.2.1
      ⟨none, fun _ => some ⟨[], []⟩⟩
      ["a", "b", "c", "d", "e", "f", "g", "h", "i", "j", "k"]
      (by decide) (by decide) (by decide) (by decide)
    exact ⟨by rw [this.1]; decide, this.2⟩
  · exact claim5_bounded_caches_amended.2.2.2.2.1
      ⟨none, fun _ => none⟩ ⟨none, [("x", ⟨[], []⟩)], []⟩ "x" ⟨[], []⟩ (by decide)
  · exact claim5_bounded_caches_amended.2.2.2.2.2
      100 ⟨none, [], [(getCacheKey "A", ⟨[], 50⟩)]⟩ "A" ⟨[], 50⟩
      (by decide) (by decide)

theorem specSearch_sorted (env : Env) (pat : String) (maxResults : Nat)
    (files : List String) :
    List.Sorted (fun a b : AnswerMatch => b.count ≤ a.count)
      (specSearch env pat maxResults files) :=
  List.Pairwise.sublist (List.take_sublist _ _) (sortByCountDesc_sorted _)

theorem specSearch_length_le (env : Env) (pat : String) (maxResults : Nat)
    (files : List String) :
    (specSearch env pat maxResults files).length ≤ maxResults := by
  simp only [specSearch, List.length_take]
  omega

theorem getCachedResult_manifest (now : Nat) (s : LoaderState) (p : String) :
    (getCachedResult now s p).2.manifest = s.manifest := by
  cases h : assocGet s.resultCache (getCacheKey p) with
  | none => simp [getCachedResult, h]
  | some cached =>
    by_cases ht : now - cached.timestamp > CACHE_TTL
    · simp [getCachedResult, h, ht]
    · simp [getCachedResult, h, ht]

/-- C3: given that the manifest loads, every per-shard load failure is
absorbed: `findMatchingAnswers` returns `.ok`, and the returned list is
exactly the matches accumulated from the successfully loaded shards
(`specSearch` filters the failing shards out of the candidate set before
scanning), sorted by count descending and truncated to `maxResults`; only a
manifest load failure propagates as an error to the caller. -/
theorem claim3_partial_failure :
    (∀ (env : Env) (m : ChunkManifest) (now : Nat) (s0 : LoaderState)
        (pat : String) (maxResults : Nat),
      env.manifestObj = some m → s0.manifest = none →
      CacheConsistent env s0.chunkCache →
      assocGet s0.resultCache (getCacheKey (jsToUpper pat)) = none →
      pat.data ≠ [] →
      ∃ files s',
        getRelevantChunksM (some m) (jsToUpper pat) = .ok files ∧
        findMatchingAnswers env now s0 pat maxResults
          = .ok (specSearch env (jsToUpper pat) maxResults files, s') ∧
        List.Sorted (fun a b : AnswerMatch => b.count ≤ a.count)
          (specSearch env (jsToUpper pat) maxResults files) ∧
        (specSearch env (jsToUpper pat) maxResults files).length ≤ maxResults) ∧
    (∀ (env : Env) (now : Nat) (s0 : LoaderState) (pat : String)
        (maxResults : Nat),
      env.manifestObj = none → s0.manifest = none →
      findMatchingAnswers env now s0 pat maxResults = .error ()) := by
  constructor
  · intro env m now s0 pat maxResults hm hs hcc hmiss hp
    obtain ⟨files, s', hfiles, heq, _, _⟩ :=
      findMatchingAnswers_run hm hs hcc hmiss hp
    exact ⟨files, s', hfiles, heq, specSearch_sorted env (jsToUpper pat) maxResults files,
      specSearch_length_le env (jsToUpper pat) maxResults files⟩
  · intro env now s0 pat maxResults hm hs
    exact findMatchingAnswers_manifest_fail hm hs

/-- Witness for C3: shard `b5` of the three candidates fails to load; the
query returns the union of the two healthy shards' matches, sorted and
truncated, with no error. -/
theorem claim3_partial_failure_witness :
    (findMatchingAnswers envWit 0 initState "?pple" 10).map Prod.fst
      = .ok [⟨"APPLE", 12⟩, ⟨"CPPLE", 7⟩] := by
  obtain ⟨files, s', hfiles, heq, hsort, hlen⟩ :=
    claim3_partial_failure.1 envWit mWit 0 initState "?pple" 10
      rfl rfl (by intro p hp; simp [initState] at hp) rfl (by decide)
  have hfv : files = ["a5", "b5", "c5"] := by
    have h2 : getRelevantChunksM (some mWit) (jsToUpper "?pple")
        = .ok ["a5", "b5", "c5"] := by decide
    rw [hfiles] at h2
    injection h2
  rw [heq, hfv]
  simp only [Except.map]
  decide

/-- C7 counterexample: with the manifest loading successfully, the empty
pattern — vacuously composed only of letters and the wildcard — makes
`findMatchingAnswers` throw (the `firstChar.replace` TypeError of line 97)
instead of returning a sequence of matches. -/
theorem claim7_engine_total_counterexample :
    findMatchingAnswers envWit 0 initState "" 100 = .error () := by decide

/-- C7 (amended): for every NON-empty string composed only of letters and
the wildcard symbol, given the manifest loads successfully,
`findMatchingAnswers` returns a result rather than an error. -/
theorem claim7_engine_total_amended (env : Env) (m : ChunkManifest)
    (now : Nat) (s0 : LoaderState) (pat : String) (maxResults : Nat)
    (hm : env.manifestObj = some m) (hs : s0.manifest = none)
    (_hchars : ∀ c ∈ pat.data,
      ('A' ≤ c ∧ c ≤ 'Z') ∨ ('a' ≤ c ∧ c ≤ 'z') ∨ c = '?')
    (hp : pat.data ≠ []) :
    (findMatchingAnswers env now s0 pat maxResults).isOk = true := by
  have hs1 : loadManifest env s0 = .ok { s0 with manifest := some m } := by
    simp [loadManifest, hs, hm]
  have hnorm : (jsToUpper pat).data ≠ [] := by
    intro hnil
    apply hp
    have h0 : pat.data.map Char.toUpper = [] := hnil
    exact List.map_eq_nil_iff.mp h0
  rcases hgc : getCachedResult now { s0 with manifest := some m } (jsToUpper pat)
    with ⟨ro, s2⟩
  have hman2 : s2.manifest = some m := by
    have h0 := getCachedResult_manifest now { s0 with manifest := some m }
      (jsToUpper pat)
    rw [hgc] at h0
    exact h0
  cases ro with
  | some cached =>
    simp [findMatchingAnswers, hs1, hgc, Except.isOk, Except.toBool]
  | none =>
    obtain ⟨files, hfiles⟩ := getRelevantChunksM_ok m (jsToUpper pat) hnorm
    have hrel : getRelevantChunksM s2.manifest (jsToUpper pat) = .ok files := by
      rw [hman2]
      exact hfiles
    cases hstrat : (analyzePattern (jsToUpper pat)).searchStrategy with
    | direct =>
      simp [findMatchingAnswers, hs1, hgc, hrel, hstrat, Except.isOk,
        Except.toBool]
    | parallelOptimized =>
      simp [findMatchingAnswers, hs1, hgc, hrel, hstrat, Except.isOk,
        Except.toBool]

/-- Witness for the amended C7. -/
theorem claim7_engine_total_amended_witness :
    (findMatchingAnswers envWit 0 initState "a?PLE" 100).isOk = true :=
  claim7_engine_total_amended envWit mWit 0 initState "a?PLE" 100 rfl rfl
    (by decide) (by decide)

/-- C9 counterexample: called without an explicit `maxResults` the engine
returns 60 results on a corpus where the `maxResults = 50` call returns 50 —
the default cannot be 50. -/
theorem claim9_default_counterexample :
    (findMatchingAnswersDefault envWit9 0 initState "A").toOption.map
        (fun x => x.1.length) = some 60 ∧
    (findMatchingAnswers envWit9 0 initState "A" 50).toOption.map
        (fun x => x.1.length) = some 50 := by
  constructor
  · decide
  · decide

/-- C9 (amended): the default value of the engine's `maxResults` parameter
is 100 (line 183): a call without the argument behaves exactly as
`maxResults = 100`, and in particular never returns more than 100 results. -/
theorem claim9_default_amended :
    (∀ (env : Env) (now : Nat) (s0 : LoaderState) (pat : String),
      findMatchingAnswersDefault env now s0 pat
        = findMatchingAnswers env now s0 pat 100) ∧
    (∀ (env : Env) (now : Nat) (s0 : LoaderState) (pat : String)
        (r : List AnswerMatch) (s' : LoaderState),
      findMatchingAnswersDefault env now s0 pat = .ok (r, s') →
      r.length ≤ 100) := by
  refine ⟨fun _ _ _ _ => rfl, ?_⟩
  intro env now s0 pat r s' h
  exact findMatchingAnswers_length_le h

/-- Witness for the amended C9. -/
theorem claim9_default_amended_witness :
    (findMatchingAnswersDefault envWit 0 initState "zzz"
      = findMatchingAnswers envWit 0 initState "zzz" 100) ∧
    ([] : List AnswerMatch).length ≤ 100 :=
  ⟨claim9_default_amended.1 envWit 0 initState "zzz",
   claim9_default_amended.2 envWit 0 initState "zzz" []
     ⟨some mWit, [], [("pattern:ZZZ", ⟨[], 0⟩)]⟩ (by decide)⟩

/-- C10: the result cache key is derived from the normalized pattern alone,
not from `maxResults`: a first call with `m1` caches its `m1`-truncated
result; a second call for the same pattern with `m2 > m1` inside the TTL hits
that entry and returns the cached list — at most `m1` results — even though a
fresh scan under `m2` could yield more. -/
theorem claim10_cache_key_ignores_max (env : Env) (m : ChunkManifest)
    (t0 t1 : Nat) (pat : String) (m1 m2 : Nat) (r1 : List AnswerMatch)
    (s1 : LoaderState)
    (hm : env.manifestObj = some m) (hp : pat.data ≠ [])
    (hlt : m1 < m2) (httl : t1 - t0 ≤ CACHE_TTL)
    (hfirst : findMatchingAnswers env t0 initState pat m1 = .ok (r1, s1)) :
    findMatchingAnswers env t1 s1 pat m2 = .ok (r1, s1) ∧ r1.length ≤ m1 := by
  obtain ⟨files, s', hfiles, heq, hman', hres'⟩ :=
    @findMatchingAnswers_run env m t0 initState pat m1
      hm rfl (by intro p hp'; simp [initState] at hp') rfl hp
  rw [heq] at hfirst
  injection hfirst with h1
  have hr : specSearch env (jsToUpper pat) m1 files = r1 := congrArg Prod.fst h1
  have hss : s' = s1 := congrArg Prod.snd h1
  subst hss
  subst hr
  have hml : loadManifest env s' = .ok s' := by
    simp [loadManifest, hman']
  have hkey : assocGet s'.resultCache (getCacheKey (jsToUpper pat))
      = some ⟨specSearch env (jsToUpper pat) m1 files, t0⟩ := by
    rw [hres']
    rw [resultEvict_of_lt (by simp [initState])]
    rw [mapSet_of_get_none _ (by rfl)]
    simp [initState, assocGet]
  have hgc2 : getCachedResult t1 s' (jsToUpper pat)
      = (some (specSearch env (jsToUpper pat) m1 files), s') :=
    getCachedResult_hit hkey httl
  constructor
  · simp only [findMatchingAnswers, hml, hgc2]
    rw [List.take_of_length_le
      (le_trans (specSearch_length_le env (jsToUpper pat) m1 files) hlt.le)]
  · exact specSearch_length_le env (jsToUpper pat) m1 files

/-- Witness for C10: the first call with `m1 = 2` caches two of the three
matches; a second call with `m2 = 4` ten seconds later returns the same two
results although a fresh scan with `m2 = 4` would yield three. -/
theorem claim10_cache_key_ignores_max_witness :
    (findMatchingAnswers envWit 10000
        ⟨some mWit,
         [("a5", ⟨[⟨"APPLE", 12⟩, ⟨"AMPLE", 5⟩, ⟨"AXPLE", 3⟩],
            [("APPLE", ["a fruit", "a fruit", "a tech company"])]⟩)],
         [("pattern:A?PLE", ⟨[⟨"APPLE", 12⟩, ⟨"AMPLE", 5⟩], 0⟩)]⟩
        "A?PLE" 4
      = .ok ([⟨"APPLE", 12⟩, ⟨"AMPLE", 5⟩],
          ⟨some mWit,
           [("a5", ⟨[⟨"APPLE", 12⟩, ⟨"AMPLE", 5⟩, ⟨"AXPLE", 3⟩],
              [("APPLE", ["a fruit", "a fruit", "a tech company"])]⟩)],
           [("pattern:A?PLE", ⟨[⟨"APPLE", 12⟩, ⟨"AMPLE", 5⟩], 0⟩)]⟩)) ∧
    ([⟨"APPLE", 12⟩, ⟨"AMPLE", 5⟩] : List AnswerMatch).length ≤ 2 := by
  have h := claim10_cache_key_ignores_max envWit mWit 0 10000 "A?PLE" 2 4
    [⟨"APPLE", 12⟩, ⟨"AMPLE", 5⟩]
    ⟨some mWit,
     [("a5", ⟨[⟨"APPLE", 12⟩, ⟨"AMPLE", 5⟩, ⟨"AXPLE", 3⟩],
        [("APPLE", ["a fruit", "a fruit", "a tech company"])]⟩)],
     [("pattern:A?PLE", ⟨[⟨"APPLE", 12⟩, ⟨"AMPLE", 5⟩], 0⟩)]⟩
    rfl (by decide) (by decide) (by decide) (by decide)
  exact h

theorem scanChunkEarly_length (pat : List Char) (m : Nat) :
    ∀ (as : List AnswerMatch) (acc : List AnswerMatch),
      acc.length < m * 2 →
      (scanChunkEarly pat m acc as).length ≤ m * 2 := by
  intro as
  induction as with
  | nil =>
    intro acc h
    simp only [scanChunkEarly]
    omega
  | cons a rest ih =>
    intro acc h
    simp only [scanChunkEarly]
    by_cases hma : regexAccepts pat a.answer.data
    · rw [if_pos hma]
      by_cases hl : (acc ++ [a]).length ≥ m * 2
      · rw [if_pos hl]
        simp only [List.length_append, List.length_singleton, List.length_nil,
          List.length_cons]
        omega
      · rw [if_neg hl]
        exact ih _ (by omega)
    · rw [if_neg hma]
      exact ih _ h

theorem parScan_length (pat : List Char) (m : Nat) :
    ∀ (cs : List Chunk) (acc : List AnswerMatch),
      acc.length < m * 2 →
      (parScan pat m cs acc).length ≤ m * 2 := by
  intro cs
  induction cs with
  | nil =>
    intro acc h
    simp only [parScan]
    omega
  | cons c rest ih =>
    intro acc h
    simp only [parScan]
    by_cases hl : (scanChunkEarly pat m acc c.answers).length ≥ m * 2
    · rw [if_pos hl]
      exact scanChunkEarly_length pat m c.answers acc h
    · rw [if_neg hl]
      exact ih _ (by omega)

theorem scanChunkEarly_early_stop (pat : List Char) (m : Nat) :
    ∀ (as1 as2 : List AnswerMatch) (acc : List AnswerMatch),
      acc.length < m * 2 →
      (scanChunkEarly pat m acc as1).length ≥ m * 2 →
      scanChunkEarly pat m acc (as1 ++ as2) = scanChunkEarly pat m acc as1 := by
  intro as1
  induction as1 with
  | nil =>
    intro as2 acc h1 h2
    simp only [scanChunkEarly] at h2
    omega
  | cons a rest ih =>
    intro as2 acc h1 h2
    simp only [scanChunkEarly, List.cons_append] at h2 ⊢
    by_cases hma : regexAccepts pat a.answer.data
    · simp only [if_pos hma] at h2 ⊢
      by_cases hl : (acc ++ [a]).length ≥ m * 2
      · simp only [if_pos hl]
      · simp only [if_neg hl] at h2 ⊢
        exact ih as2 _ (by omega) h2
    · simp only [if_neg hma] at h2 ⊢
      exact ih as2 acc h1 h2

theorem parScan_early_stop (pat : List Char) (m : Nat) :
    ∀ (cs1 cs2 : List Chunk) (acc : List AnswerMatch),
      acc.length < m * 2 →
      (parScan pat m cs1 acc).length ≥ m * 2 →
      parScan pat m (cs1 ++ cs2) acc = parScan pat m cs1 acc := by
  intro cs1
  induction cs1 with
  | nil =>
    intro cs2 acc h1 h2
    simp only [parScan] at h2
    omega
  | cons c rest ih =>
    intro cs2 acc h1 h2
    simp only [parScan, List.cons_append] at h2 ⊢
    by_cases hl : (scanChunkEarly pat m acc c.answers).length ≥ m * 2
    · simp only [if_pos hl]
    · simp only [if_neg hl] at h2 ⊢
      exact ih cs2 _ (by omega) h2

/-- C6: in the parallel-optimized strategy the accumulated match count never
exceeds `2 × maxResults` (for the caller-contracted range `maxResults ≥ 1`);
once `2 × maxResults` matches have accumulated, no further shards are scanned
(appending unscanned shards does not change the accumulation) and no further
answers of the current shard are scanned (appending unscanned answers does
not change it); the direct strategy applies no early stop — its accumulation
equals the full filter of every answer of every loaded shard, independent of
`maxResults`. -/
theorem claim6_early_stopping :
    (∀ (pat : List Char) (maxResults : Nat) (chunks : List Chunk),
        1 ≤ maxResults →
        (parScan pat maxResults chunks []).length ≤ maxResults * 2) ∧
    (∀ (pat : List Char) (maxResults : Nat) (cs1 cs2 : List Chunk),
        1 ≤ maxResults →
        (parScan pat maxResults cs1 []).length ≥ maxResults * 2 →
        parScan pat maxResults (cs1 ++ cs2) []
          = parScan pat maxResults cs1 []) ∧
    (∀ (pat : List Char) (maxResults : Nat)
        (acc as1 as2 : List AnswerMatch),
        acc.length < maxResults * 2 →
        (scanChunkEarly pat maxResults acc as1).length ≥ maxResults * 2 →
        scanChunkEarly pat maxResults acc (as1 ++ as2)
          = scanChunkEarly pat maxResults acc as1) ∧
    (∀ (env : Env) (pat : List Char) (files : List String) (s : LoaderState),
        CacheConsistent env s.chunkCache →
        (directScan env pat files s []).1
          = (files.filterMap env.chunkStore).flatMap (scanChunkDirect pat)) := by
  refine ⟨?_, ?_, ?_, ?_⟩
  · intro pat maxResults chunks h
    exact parScan_length pat maxResults chunks [] (by simp; omega)
  · intro pat maxResults cs1 cs2 h h2
    exact parScan_early_stop pat maxResults cs1 cs2 [] (by simp; omega) h2
  · intro pat maxResults acc as1 as2 h1 h2
    exact scanChunkEarly_early_stop pat maxResults as1 as2 acc h1 h2
  · intro env pat files s hcc
    have h := (directScan_spec env pat files s [] hcc).1
    rw [h]
    simp

/-- Witness for C6: with `maxResults = 1` a three-match shard accumulates
only 2 matches; appending a further shard (or further answers) after the
threshold changes nothing; the direct scan keeps all three matches. -/
theorem claim6_early_stopping_witness :
    (parScan "A".data 1 [⟨[⟨"A", 1⟩, ⟨"A", 2⟩, ⟨"A", 3⟩], []⟩] []).length
        ≤ 1 * 2 ∧
    parScan "A".data 1 ([⟨[⟨"A", 1⟩, ⟨"A", 2⟩, ⟨"A", 3⟩], []⟩]
        ++ [⟨[⟨"A", 9⟩], []⟩]) []
      = parScan "A".data 1 [⟨[⟨"A", 1⟩, ⟨"A", 2⟩, ⟨"A", 3⟩], []⟩] [] ∧
    scanChunkEarly "A".data 1 []
        ([⟨"A", 1⟩, ⟨"A", 2⟩, ⟨"A", 3⟩] ++ [⟨"A", 9⟩])
      = scanChunkEarly "A".data 1 [] [⟨"A", 1⟩, ⟨"A", 2⟩, ⟨"A", 3⟩] ∧
    (directScan envWit "A?PLE".data ["a5", "b5"] initState []).1
      = ((["a5", "b5"].filterMap envWit.chunkStore).flatMap
          (scanChunkDirect "A?PLE".data)) :=
  ⟨claim6_early_stopping.1 "A".data 1 _ (by decide),
   claim6_early_stopping.2.1 "A".data 1 _ _ (by decide) (by decide),
   claim6_early_stopping.2.2.1 "A".data 1 [] _ _ (by decide) (by decide),
   claim6_early_stopping.2.2.2 envWit "A?PLE".data ["a5", "b5"] initState
     (by intro p hp; simp [initState] at hp)⟩

/-! ### Fisher–Yates shuffle and clue deduplication -/

theorem setPerm {α : Type} :
    ∀ (l : List α) (j : Nat) (x y : α), l.get? j = some x →
      (x :: l.set j y).Perm (y :: l) := by
  intro l
  induction l with
  | nil => intro j x y h; simp at h
  | cons c l' ih =>
    intro j x y h
    cases j with
    | zero =>
      simp only [List.get?] at h
      injection h with h'
      rw [← h']
      simp only [List.set]
      exact List.Perm.swap y c l'
    | succ k =>
      simp only [List.get?] at h
      simp only [List.set]
      exact ((List.Perm.swap c x _).trans
        (List.Perm.cons c (ih k x y h))).trans (List.Perm.swap y c l')

theorem set_set_perm {α : Type} :
    ∀ (l : List α) (i j : Nat) (a b : α),
      l.get? i = some a → l.get? j = some b →
      ((l.set i b).set j a).Perm l := by
  intro l
  induction l with
  | nil => intro i j a b hi _; simp at hi
  | cons c l' ih =>
    intro i j a b hi hj
    cases i with
    | zero =>
      simp only [List.get?] at hi
      injection hi with hi'
      cases j with
      | zero =>
        simp only [List.get?] at hj
        injection hj with hj'
        simp only [List.set]
        rw [← hi']
      | succ k =>
        simp only [List.get?] at hj
        simp only [List.set]
        rw [hi']
        exact setPerm l' k b a hj
    | succ n =>
      simp only [List.get?] at hi
      cases j with
      | zero =>
        simp only [List.get?] at hj
        injection hj with hj'
        simp only [List.set]
        rw [hj']
        exact setPerm l' n a b hi
      | succ k =>
        simp only [List.get?] at hi hj
        simp only [List.set]
        exact List.Perm.cons c (ih n k a b hi hj)

theorem swapAt_perm {α : Type} (l : List α) (i j : Nat) :
    (swapAt l i j).Perm l := by
  unfold swapAt
  cases hi : l.get? i with
  | none => exact List.Perm.refl l
  | some a =>
    cases hj : l.get? j with
    | none => exact List.Perm.refl l
    | some b => exact set_set_perm l i j a b hi hj

theorem fisherYatesAux_perm {α : Type} (rand : Nat → Nat) :
    ∀ (n : Nat) (l : List α), (fisherYatesAux rand n l).Perm l := by
  intro n
  induction n with
  | zero => intro l; exact List.Perm.refl l
  | succ i ih =>
    intro l
    exact (ih _).trans (swapAt_perm l (i + 1) (rand (i + 1) % (i + 2)))

theorem fisherYates_perm {α : Type} (rand : Nat → Nat) (l : List α) :
    (fisherYates rand l).Perm l :=
  fisherYatesAux_perm rand _ l

theorem jsSetUnique_aux_nodup :
    ∀ (l acc : List String), acc.Nodup →
      (l.foldl (fun acc c => if c ∈ acc then acc else acc ++ [c]) acc).Nodup := by
  intro l
  induction l with
  | nil => intro acc h; exact h
  | cons c rest ih =>
    intro acc h
    simp only [List.foldl_cons]
    by_cases hc : c ∈ acc
    · rw [if_pos hc]
      exact ih acc h
    · rw [if_neg hc]
      apply ih
      apply List.Nodup.append h (List.nodup_singleton c)
      intro a ha hb
      rw [List.mem_singleton.mp hb] at ha
      exact hc ha

theorem jsSetUnique_nodup (l : List String) : (jsSetUnique l).Nodup :=
  jsSetUnique_aux_nodup l [] List.nodup_nil

theorem jsSetUnique_aux_mem :
    ∀ (l acc : List String) (x : String),
      (x ∈ l.foldl (fun acc c => if c ∈ acc then acc else acc ++ [c]) acc
        ↔ x ∈ acc ∨ x ∈ l) := by
  intro l
  induction l with
  | nil => intro acc x; simp
  | cons c rest ih =>
    intro acc x
    simp only [List.foldl_cons]
    by_cases hc : c ∈ acc
    · rw [if_pos hc, ih]
      constructor
      · rintro (h | h)
        · exact Or.inl h
        · exact Or.inr (List.mem_cons_of_mem c h)
      · rintro (h | h)
        · exact Or.inl h
        · rcases List.mem_cons.mp h with h' | h'
          · rw [h']
            exact Or.inl hc
          · exact Or.inr h'
    · rw [if_neg hc, ih]
      constructor
      · rintro (h | h)
        · rcases List.mem_append.mp h with h' | h'
          · exact Or.inl h'
          · rw [List.mem_singleton.mp h']
            exact Or.inr (List.mem_cons_self c rest)
        · exact Or.inr (List.mem_cons_of_mem c h)
      · rintro (h | h)
        · exact Or.inl (List.mem_append.mpr (Or.inl h))
        · rcases List.mem_cons.mp h with h' | h'
          · refine Or.inl (List.mem_append.mpr (Or.inr ?_))
            rw [h']
            exact List.mem_singleton_self c
          · exact Or.inr h'

theorem jsSetUnique_mem {l : List String} {x : String} :
    x ∈ jsSetUnique l ↔ x ∈ l := by
  unfold jsSetUnique
  rw [jsSetUnique_aux_mem]
  simp

theorem jsSetUnique_length (l : List String) :
    (jsSetUnique l).length = l.toFinset.card := by
  have h1 : (jsSetUnique l).toFinset = l.toFinset := by
    ext x
    simp only [List.mem_toFinset]
    exact jsSetUnique_mem
  rw [← h1]
  exact (List.toFinset_card_of_nodup (jsSetUnique_nodup l)).symm

/-- C8: for every answer whose shard loads successfully (the clue list the
code consults is `stored`) and every `maxClues`, `getClues` succeeds and
returns pairwise distinct clues, each drawn from the stored clue list, at
most `min maxClues (number of distinct stored clues)` of them.  An answer
absent from the shard gives `stored = []`, forcing the empty sequence. -/
theorem claim8_clue_dedup (env : Env) (rand : Nat → Nat) (s0 s1 : LoaderState)
    (answer : String) (maxClues : Nat) (stored : List String)
    (hml : loadManifest env s0 = .ok s1)
    (hsrc : cluesSource env s1 (jsToUpper answer) = some stored) :
    (getClues env rand s0 answer maxClues).isOk = true ∧
    (∀ (res : List String) (s2 : LoaderState),
      getClues env rand s0 answer maxClues = .ok (res, s2) →
      res.Nodup ∧ (∀ c ∈ res, c ∈ stored) ∧
      res.length ≤ min maxClues stored.toFinset.card) := by
  unfold cluesSource at hsrc
  split at hsrc
  · simp at hsrc
  · next fl rest hd =>
    split at hsrc
    · simp at hsrc
    · next lc hb =>
      split at hsrc
      · simp at hsrc
      · next fileName hf =>
        split at hsrc
        · simp at hsrc
        · next pr hload =>
          obtain ⟨chunk, s2'⟩ := pr
          injection hsrc with hsrc'
          have hgc : getClues env rand s0 answer maxClues
              = .ok ((fisherYates rand (jsSetUnique
                  ((assocGet chunk.clues (jsToUpper answer)).getD
                    []))).take maxClues, s2') := by
            simp only [getClues, hml, hd, hb, hf, hload]
          subst hsrc'
          refine ⟨by rw [hgc]; rfl, ?_⟩
          intro res s2 h
          rw [hgc] at h
          injection h with h1
          have hres : (fisherYates rand (jsSetUnique
              ((assocGet chunk.clues (jsToUpper answer)).getD
                []))).take maxClues = res := congrArg Prod.fst h1
          rw [← hres]
          refine ⟨?_, ?_, ?_⟩
          · exact List.Nodup.sublist (List.take_sublist _ _)
              (((fisherYates_perm rand _).nodup_iff).mpr (jsSetUnique_nodup _))
          · intro c hc
            have h2 := List.mem_of_mem_take hc
            have h3 := ((fisherYates_perm rand _).mem_iff).mp h2
            exact jsSetUnique_mem.mp h3
          · rw [List.length_take]
            have h4 : (fisherYates rand (jsSetUnique
                ((assocGet chunk.clues (jsToUpper answer)).getD []))).length
                = ((assocGet chunk.clues (jsToUpper answer)).getD
                    []).toFinset.card := by
              rw [(fisherYates_perm rand _).length_eq]
              exact jsSetUnique_length _
            rw [h4]

/-- Witness for C8: stored clues `["a fruit", "a fruit", "a tech company"]`
with `maxClues = 10` give a duplicate-free subset of the two distinct clues
of length at most 2. -/
theorem claim8_clue_dedup_witness :
    (getClues envWit (fun _ => 0) initState "apple" 10).isOk = true ∧
    (["a tech company", "a fruit"].Nodup ∧
      (∀ c ∈ (["a tech company", "a fruit"] : List String),
        c ∈ (["a fruit", "a fruit", "a tech company"] : List String)) ∧
      (["a tech company", "a fruit"] : List String).length
        ≤ min 10 (["a fruit", "a fruit", "a tech company"] :
            List String).toFinset.card) := by
  have h := claim8_clue_dedup envWit (fun _ => 0) initState
    ⟨some mWit, [], []⟩ "apple" 10 ["a fruit", "a fruit", "a tech company"]
    (by decide) (by decide)
  refine ⟨h.1, ?_⟩
  exact h.2 ["a tech company", "a fruit"]
    ⟨some mWit, [("a5", ⟨[⟨"APPLE", 12⟩, ⟨"AMPLE", 5⟩, ⟨"AXPLE", 3⟩],
      [("APPLE", ["a fruit", "a fruit", "a tech company"])]⟩)], []⟩
    (by decide)

/-- C4 counterexample: `loadManifest` runs outside the `try` of `getClues`
(line 257), so a manifest load failure propagates to the caller as an error
instead of yielding an empty clue sequence. -/
theorem claim4_clue_errors_counterexample :
    getClues ⟨none, fun _ => none⟩ (fun _ => 0) initState "APPLE" 10
      = .error () := by decide

/-- C4 (amended): once the manifest has loaded successfully and the answer
is non-empty, `getClues` never propagates an error, and any failure after
that point — missing manifest bucket or failed shard load — yields the empty
clue sequence. -/
theorem claim4_clue_errors_amended (env : Env) (rand : Nat → Nat)
    (s0 s1 : LoaderState) (answer : String) (maxClues : Nat)
    (hml : loadManifest env s0 = .ok s1) (hp : answer.data ≠ []) :
    (getClues env rand s0 answer maxClues).isOk = true ∧
    (cluesSource env s1 (jsToUpper answer) = none →
      getClues env rand s0 answer maxClues = .ok ([], s1)) := by
  have hd0 : ∃ fl rest, (jsToUpper answer).data = fl :: rest := by
    cases hdd : (jsToUpper answer).data with
    | nil =>
      have h0 : answer.data.map Char.toUpper = [] := hdd
      exact absurd (List.map_eq_nil_iff.mp h0) hp
    | cons fl rest => exact ⟨fl, rest, rfl⟩
  obtain ⟨fl, rest, hd⟩ := hd0
  constructor
  · cases hb : s1.manifest.bind
        (fun m => assocGet m.chunks (jsToUpper answer).length) with
    | none => simp [getClues, hml, hd, hb, Except.isOk, Except.toBool]
    | some lc =>
      cases hf : assocGet lc (sanitizeChar fl) with
      | none => simp [getClues, hml, hd, hb, hf, Except.isOk, Except.toBool]
      | some fileName =>
        cases hload : loadChunk env s1 fileName with
        | error e =>
          simp [getClues, hml, hd, hb, hf, hload, Except.isOk, Except.toBool]
        | ok pr =>
          obtain ⟨chunk, s2⟩ := pr
          simp [getClues, hml, hd, hb, hf, hload, Except.isOk, Except.toBool]
  · intro hnone
    unfold cluesSource at hnone
    rw [hd] at hnone
    cases hb : s1.manifest.bind
        (fun m => assocGet m.chunks (jsToUpper answer).length) with
    | none => simp [getClues, hml, hd, hb]
    | some lc =>
      cases hf : assocGet lc (sanitizeChar fl) with
      | none => simp [getClues, hml, hd, hb, hf]
      | some fileName =>
        cases hload : loadChunk env s1 fileName with
        | error e => simp [getClues, hml, hd, hb, hf, hload]
        | ok pr =>
          simp only [hb, hf, hload] at hnone
          simp at hnone

/-- Witness for the amended C4: every shard load fails, yet `getClues`
returns the empty sequence without an error. -/
theorem claim4_clue_errors_amended_witness :
    (getClues (⟨some mWit, fun _ => none⟩ : Env) (fun _ => 0) initState
        "apple" 10).isOk = true ∧
    getClues (⟨some mWit, fun _ => none⟩ : Env) (fun _ => 0) initState
        "apple" 10 = .ok ([], ⟨some mWit, [], []⟩) := by
  have h := claim4_clue_errors_amended ⟨some mWit, fun _ => none⟩
    (fun _ => 0) initState ⟨some mWit, [], []⟩ "apple" 10
    (by decide) (by decide)
  exact ⟨h.1, h.2 (by decide)⟩

end DownPattern
